import Mathlib

/-!
Verification of the rustle word-guessing game (src/main.rs).

Strings are modelled as lists of characters.  The two HashMap operations the
source uses (entry/or_insert/and_modify and indexing) are modelled by an
association list with Option-valued lookup, so that a lookup of a missing key
(a Rust panic) is visible as a failure.  Every partial operation of the source
(slice indexing, unwrap of a character lookup, map indexing) is modelled by
returning none, so totality claims can be stated as isSome facts.  Rust char
uppercasing and whitespace trimming are modelled on the ASCII range, which is
the range all retained dictionary characters live in.
-/

namespace Rustle

/-- Letter verdicts; the source encodes them as the three colors
BrightGreen (Correct), BrightYellow (Misplaced), BrightRed (Absent). -/
inductive Verdict
  | Correct
  | Misplaced
  | Absent
deriving DecidableEq, Repr

/-- The per-letter remaining-count map of the source, a HashMap with char keys
and i32 values, modelled as an association list. -/
abbrev CharMap := List (Char × Int)

/-- Map lookup; none models a missing key (indexing a missing key panics). -/
def alistLookup : CharMap → Char → Option Int
  | [], _ => none
  | (k, v) :: rest, c => if k = c then some v else alistLookup rest c

/-- Lookup with default 0, used to state count facts uniformly. -/
def lookupD (m : CharMap) (c : Char) : Int :=
  (alistLookup m c).getD 0

/-- HashMap::entry(c).and_modify(f): update the value if the key is present,
otherwise do nothing. -/
def andModify : CharMap → Char → (Int → Int) → CharMap
  | [], _, _ => []
  | (k, v) :: rest, c, f =>
    if k = c then (k, f v) :: rest else (k, v) :: andModify rest c f

/-- HashMap::entry(c).or_insert(0) followed by += 1. -/
def orInsertIncr : CharMap → Char → CharMap
  | [], c => [(c, 1)]
  | (k, v) :: rest, c =>
    if k = c then (k, v + 1) :: rest else (k, v) :: orInsertIncr rest c

/-- create_charmap of the source: fold the word, bumping each letter count. -/
def create_charmap (word : List Char) : CharMap :=
  word.foldl orInsertIncr []

/-- WORD_LENGTH of the source. -/
def WORD_LENGTH : Nat := 5

/-- MAX_TRIES of the source. -/
def MAX_TRIES : Nat := 6

/-- Pass 1 of colorize_guess: for each guess position, compare with the
secret character at that position (nth + unwrap, so a missing position is a
failure) and mark Correct, decrementing the letter count. -/
def pass1Aux (secret : List Char) : Nat → List Char → List Verdict → CharMap →
    Option (List Verdict × CharMap)
  | _, [], arr, cnt => some (arr, cnt)
  | pos, c :: grest, arr, cnt =>
    match secret.get? pos with
    | none => none
    | some sc =>
      if sc = c then
        pass1Aux secret (pos + 1) grest (arr.set pos Verdict.Correct)
          (andModify cnt c (fun e => e - 1))
      else
        pass1Aux secret (pos + 1) grest arr cnt

/-- The inner scan of pass 2: for one non-Correct guess position pos holding
letter c, scan every secret position i; skip positions whose guess verdict is
Correct; at a secret occurrence of c with positive remaining count, mark pos
Misplaced and decrement.  The scan does not stop after a match, exactly as in
the source (the for_each continues).  Indexing guess_array out of range and
indexing the count map at a missing key are failures (none). -/
def pass2Inner (c : Char) (pos : Nat) : Nat → List Char → List Verdict → CharMap →
    Option (List Verdict × CharMap)
  | _, [], arr, cnt => some (arr, cnt)
  | i, ch :: srest, arr, cnt =>
    match arr.get? i with
    | none => none
    | some v =>
      if v = Verdict.Correct then
        pass2Inner c pos (i + 1) srest arr cnt
      else if ch = c then
        match alistLookup cnt c with
        | none => none
        | some m =>
          if 0 < m then
            pass2Inner c pos (i + 1) srest (arr.set pos Verdict.Misplaced)
              (andModify cnt c (fun e => e - 1))
          else
            pass2Inner c pos (i + 1) srest arr cnt
      else
        pass2Inner c pos (i + 1) srest arr cnt

/-- Pass 2 of colorize_guess: for each guess position not already Correct,
run the inner secret scan. -/
def pass2Aux (secret : List Char) : Nat → List Char → List Verdict → CharMap →
    Option (List Verdict × CharMap)
  | _, [], arr, cnt => some (arr, cnt)
  | pos, c :: grest, arr, cnt =>
    if arr.get? pos = some Verdict.Correct then
      pass2Aux secret (pos + 1) grest arr cnt
    else
      match pass2Inner c pos 0 secret arr cnt with
      | none => none
      | some (arr2, cnt2) => pass2Aux secret (pos + 1) grest arr2 cnt2

/-- The final loop of colorize_guess: every guess position whose verdict is
neither Correct nor Misplaced inserts its character into guessed_letters. -/
def pass3Aux : Nat → List Char → List Verdict → Finset Char → Finset Char
  | _, [], _, gl => gl
  | pos, c :: grest, arr, gl =>
    if arr.get? pos = some Verdict.Correct ∨ arr.get? pos = some Verdict.Misplaced then
      pass3Aux (pos + 1) grest arr gl
    else
      pass3Aux (pos + 1) grest arr (insert c gl)

/-- colorize_guess of the source: the initial verdict array is all-Absent
(INCORRECT_COLOR), then pass 1, pass 2, and the guessed_letters update.
Returns the final verdict array and the new guessed_letters set. -/
def colorize_guess (secret guess : List Char) (gl : Finset Char) :
    Option (List Verdict × Finset Char) :=
  match pass1Aux secret 0 guess (guess.map fun _ => Verdict.Absent) (create_charmap secret) with
  | none => none
  | some (arr1, cnt1) =>
    match pass2Aux secret 0 guess arr1 cnt1 with
    | none => none
    | some (arr2, _) => some (arr2, pass3Aux 0 guess arr2 gl)

/-- Unicode code points Rust's char::is_whitespace accepts (White_Space). -/
def isWhitespaceChar (c : Char) : Bool :=
  decide (c.toNat ∈ ([9, 10, 11, 12, 13, 32, 133, 160, 5760, 8192, 8193, 8194,
    8195, 8196, 8197, 8198, 8199, 8200, 8201, 8202, 8232, 8233, 8239, 8287,
    12288] : List Nat))

/-- str::trim of the source, dropping whitespace from both ends. -/
def trimList (s : List Char) : List Char :=
  ((s.dropWhile isWhitespaceChar).reverse.dropWhile isWhitespaceChar).reverse

/-- char::is_ascii_alphabetic of the source. -/
def isAsciiAlphabetic (c : Char) : Bool :=
  decide ((65 ≤ c.toNat ∧ c.toNat ≤ 90) ∨ (97 ≤ c.toNat ∧ c.toNat ≤ 122))

/-- Uppercasing as used by the source, modelled on the ASCII range (only
ASCII-alphabetic characters survive the following filter). -/
def toUpperChar (c : Char) : Char :=
  if 97 ≤ c.toNat ∧ c.toNat ≤ 122 then Char.ofNat (c.toNat - 32) else c

/-- sanitize_word of the source: trim, uppercase, keep ASCII letters. -/
def sanitize_word (w : List Char) : List Char :=
  ((trimList w).map toUpperChar).filter isAsciiAlphabetic

/-- str::split of the source on a newline: the list of segments between
newline characters, including empty ones. -/
def splitNewlines : List Char → List (List Char)
  | [] => [[]]
  | c :: rest =>
    if c = Char.ofNat 10 then
      [] :: splitNewlines rest
    else
      match splitNewlines rest with
      | [] => [[c]]
      | h :: t => (c :: h) :: t

/-- words_list of the source: split the asset text into lines, skip the two
header lines, sanitize each line, keep length-5 results. -/
def words_list (text : List Char) : List (List Char) :=
  (((splitNewlines text).drop 2).map sanitize_word).filter
    (fun line => line.length = WORD_LENGTH)

/-- The mutable game state of RustleGame (the rng is not modelled; the guess
history keeps the verdicts of each scored guess). -/
structure GameState where
  dictionary : List (List Char)
  word : List Char
  guessed_letters : Finset Char
  guesses : List (List Verdict)
deriving DecidableEq

/-- The three ways one submitted line is handled in ask_for_guess. -/
inductive SubmitOutcome
  | rejectedLength
  | rejectedUnknown
  | accepted
deriving DecidableEq, Repr

/-- One iteration of the ask_for_guess loop on an input line: sanitize, check
the length, check dictionary membership, and on acceptance score the guess and
push it onto the history.  none models a panic inside colorize_guess. -/
def submit_guess (st : GameState) (raw : List Char) :
    Option (SubmitOutcome × GameState) :=
  let g := sanitize_word raw
  if g.length ≠ WORD_LENGTH then
    some (SubmitOutcome.rejectedLength, st)
  else if g ∉ st.dictionary then
    some (SubmitOutcome.rejectedUnknown, st)
  else
    match colorize_guess st.word g st.guessed_letters with
    | none => none
    | some (arr, gl) =>
      some (SubmitOutcome.accepted,
        { st with guessed_letters := gl, guesses := st.guesses ++ [arr] })

/-- The outcome of one is_game_over check. -/
inductive Outcome
  | Won
  | Lost
  | Continue
deriving DecidableEq, Repr

/-- is_game_over of the source, called right after a guess was accepted with
n_tries = number of accepted guesses so far: win on equality with the secret
(checked first), lose when the try count has reached MAX_TRIES. -/
def is_game_over (word guess : List Char) (n_tries : Nat) : Outcome :=
  if guess = word then Outcome.Won
  else if MAX_TRIES ≤ n_tries then Outcome.Lost
  else Outcome.Continue

/-- The main loop of the source over a stream of accepted guesses: each one
bumps the try count and is checked by is_game_over; the pair returned is the
final state and the number of accepted guesses consumed. -/
def runAux (word : List Char) : Nat → List (List Char) → Outcome × Nat
  | n, [] => (Outcome.Continue, n)
  | n, g :: gs =>
    match is_game_over word g (n + 1) with
    | Outcome.Won => (Outcome.Won, n + 1)
    | Outcome.Lost => (Outcome.Lost, n + 1)
    | Outcome.Continue => runAux word (n + 1) gs

/-- A whole game run from zero accepted guesses. -/
def runGame (word : List Char) (gs : List (List Char)) : Outcome × Nat :=
  runAux word 0 gs

/-! ## Position counting toolkit -/

/-- Number of positions below n satisfying a predicate. -/
def posCount (n : Nat) (P : Nat → Bool) : Nat :=
  ((List.range n).filter P).length

theorem posCount_zero (P : Nat → Bool) : posCount 0 P = 0 := rfl

theorem posCount_snoc (n : Nat) (P : Nat → Bool) :
    posCount (n + 1) P = posCount n P + (if P n then 1 else 0) := by
  unfold posCount
  rw [List.range_succ, List.filter_append, List.length_append]
  simp [List.filter]
  cases h : P n <;> simp [h]

theorem posCount_shift (n : Nat) (P : Nat → Bool) :
    posCount (n + 1) P = (if P 0 then 1 else 0) + posCount n (fun j => P (j + 1)) := by
  unfold posCount
  rw [List.range_succ_eq_map]
  cases h : P 0 <;>
    simp [List.filter, h, List.filter_map, Function.comp_def, Nat.succ_eq_add_one] <;>
    omega

theorem posCount_congr {n : Nat} {P Q : Nat → Bool} (h : ∀ i, i < n → P i = Q i) :
    posCount n P = posCount n Q := by
  unfold posCount
  rw [List.filter_congr (fun i hi => h i (List.mem_range.mp hi))]

theorem posCount_eq_zero {n : Nat} {P : Nat → Bool} (h : ∀ i, i < n → P i = false) :
    posCount n P = 0 := by
  induction n with
  | zero => rfl
  | succ m ih =>
    rw [posCount_snoc, ih (fun i hi => h i (Nat.lt_succ_of_lt hi)), h m (Nat.lt_succ_self m)]
    simp

theorem posCount_pos {n : Nat} {P : Nat → Bool} {p : Nat} (hp : p < n) (hP : P p = true) :
    0 < posCount n P := by
  unfold posCount
  rw [List.length_pos_iff_exists_mem]
  exact ⟨p, List.mem_filter.mpr ⟨List.mem_range.mpr hp, hP⟩⟩

theorem posCount_exists {n : Nat} {P : Nat → Bool} (h : 0 < posCount n P) :
    ∃ p, p < n ∧ P p = true := by
  unfold posCount at h
  rw [List.length_pos_iff_exists_mem] at h
  obtain ⟨p, hp⟩ := h
  rw [List.mem_filter, List.mem_range] at hp
  exact ⟨p, hp.1, hp.2⟩

theorem posCount_le_one {n : Nat} {P : Nat → Bool} {p0 : Nat}
    (h : ∀ i, i < n → P i = true → i = p0) : posCount n P ≤ 1 := by
  induction n with
  | zero => exact Nat.zero_le 1
  | succ m ih =>
    rw [posCount_snoc]
    cases hm : P m with
    | false =>
      have := ih (fun i hi hPi => h i (Nat.lt_succ_of_lt hi) hPi)
      simp only [if_neg (by simp : ¬ (false = true))]
      omega
    | true =>
      have hm0 : m = p0 := h m (Nat.lt_succ_self m) hm
      have hz : posCount m P = 0 := by
        apply posCount_eq_zero
        intro i hi
        cases hPi : P i with
        | false => rfl
        | true =>
          have : i = p0 := h i (Nat.lt_succ_of_lt hi) hPi
          omega
      rw [hz]
      simp

theorem posCount_or_disjoint {n : Nat} {P Q : Nat → Bool}
    (h : ∀ i, i < n → ¬(P i = true ∧ Q i = true)) :
    posCount n (fun i => P i || Q i) = posCount n P + posCount n Q := by
  induction n with
  | zero => rfl
  | succ m ih =>
    rw [posCount_snoc, posCount_snoc, posCount_snoc,
      ih (fun i hi => h i (Nat.lt_succ_of_lt hi))]
    have hm := h m (Nat.lt_succ_self m)
    cases hP : P m <;> cases hQ : Q m <;> simp [hP, hQ] at hm ⊢ <;> omega

/-- The least position below n satisfying a predicate, if any. -/
def firstIdxBelow (P : Nat → Bool) : Nat → Option Nat
  | 0 => none
  | n + 1 =>
    match firstIdxBelow P n with
    | some p => some p
    | none => if P n then some n else none

theorem firstIdxBelow_succ (P : Nat → Bool) (n : Nat) :
    firstIdxBelow P (n + 1) =
      match firstIdxBelow P n with
      | some p => some p
      | none => if P n then some n else none := rfl

theorem firstIdxBelow_isSome {P : Nat → Bool} {q : Nat} (hq : P q = true) :
    ∀ {n : Nat}, q < n → ∃ r, firstIdxBelow P n = some r := by
  intro n
  induction n with
  | zero => omega
  | succ m ih =>
    intro hlt
    rw [firstIdxBelow_succ]
    cases hk : firstIdxBelow P m with
    | some r => exact ⟨r, rfl⟩
    | none =>
      by_cases hqm : q = m
      · subst hqm
        rw [if_pos hq]
        exact ⟨q, rfl⟩
      · obtain ⟨r, hr⟩ := ih (by omega)
        rw [hr] at hk
        cases hk

theorem firstIdxBelow_some {P : Nat → Bool} :
    ∀ {n p : Nat}, firstIdxBelow P n = some p →
      P p = true ∧ p < n ∧ ∀ q, q < p → P q = false := by
  intro n
  induction n with
  | zero => intro p h; exact absurd h (by simp [firstIdxBelow])
  | succ m ih =>
    intro p h
    rw [firstIdxBelow_succ] at h
    cases hm : firstIdxBelow P m with
    | some r =>
      rw [hm] at h
      obtain ⟨h1, h2, h3⟩ := ih hm
      cases h
      exact ⟨h1, Nat.lt_succ_of_lt h2, h3⟩
    | none =>
      rw [hm] at h
      cases hP : P m with
      | true =>
        rw [if_pos hP] at h
        cases h
        refine ⟨hP, Nat.lt_succ_self m, ?_⟩
        intro q hq
        cases hq2 : P q with
        | false => rfl
        | true =>
          obtain ⟨r, hr⟩ := firstIdxBelow_isSome hq2 hq
          rw [hr] at hm
          cases hm
      | false =>
        rw [hP] at h
        simp at h

theorem firstIdxBelow_of_first {P : Nat → Bool} {p : Nat} (hP : P p = true)
    (hleast : ∀ q, q < p → P q = false) :
    ∀ {n : Nat}, p < n → firstIdxBelow P n = some p := by
  intro n
  induction n with
  | zero => omega
  | succ m ih =>
    intro hlt
    rw [firstIdxBelow_succ]
    cases hm : firstIdxBelow P m with
    | some r =>
      obtain ⟨h1, h2, h3⟩ := firstIdxBelow_some hm
      have : r = p := by
        rcases Nat.lt_trichotomy r p with h | h | h
        · exact absurd (hleast r h) (by simp [h1])
        · exact h
        · exact absurd (h3 p h) (by simp [hP])
      rw [this]
    | none =>
      have hpm : p = m := by
        by_contra hne
        obtain ⟨r, hr⟩ := firstIdxBelow_isSome hP (show p < m by omega)
        rw [hr] at hm
        cases hm
      subst hpm
      rw [if_pos hP]

theorem firstIdxBelow_none {P : Nat → Bool} :
    ∀ {n : Nat}, firstIdxBelow P n = none ↔ ∀ q, q < n → P q = false := by
  intro n
  induction n with
  | zero => simp [firstIdxBelow]
  | succ m ih =>
    rw [firstIdxBelow_succ]
    constructor
    · intro h q hq
      cases hm : firstIdxBelow P m with
      | some r => rw [hm] at h; cases h
      | none =>
        rw [hm] at h
        by_cases hqm : q < m
        · exact ih.mp hm q hqm
        · have : q = m := by omega
          subst this
          cases hPq : P q with
          | false => rfl
          | true => rw [if_pos hPq] at h; cases h
    · intro h
      have hm : firstIdxBelow P m = none :=
        ih.mpr (fun q hq => h q (Nat.lt_succ_of_lt hq))
      rw [hm, h m (Nat.lt_succ_self m)]
      simp

theorem firstIdxBelow_succ_of_not {P : Nat → Bool} {n : Nat} (h : P n = false) :
    firstIdxBelow P (n + 1) = firstIdxBelow P n := by
  rw [firstIdxBelow_succ]
  cases hm : firstIdxBelow P n with
  | some r => rfl
  | none => rw [h]; simp

theorem firstIdxBelow_succ_of_some {P : Nat → Bool} {n p : Nat}
    (h : firstIdxBelow P n = some p) : firstIdxBelow P (n + 1) = some p := by
  rw [firstIdxBelow_succ, h]

/-! ## Derived (specification-side) description of the scorer -/

/-- Multiplicity of a letter in a word, counted positionally. -/
def multP (l : List Char) (c : Char) : Nat :=
  posCount l.length (fun i => decide (l.get? i = some c))

/-- Number of positions where both guess and secret hold the letter c,
i.e. the number of Correct marks of that letter in pass 1. -/
def corrP (secret guess : List Char) (c : Char) : Nat :=
  posCount guess.length
    (fun p => decide (guess.get? p = some c ∧ secret.get? p = some c))

/-- Number of secret positions holding c that are not exact matches: the
count left for letter c after pass 1, and also the number of secret slots
pass 2 may consume for c. -/
def misSecretP (secret guess : List Char) (c : Char) : Nat :=
  posCount secret.length
    (fun i => decide (secret.get? i = some c ∧ ¬(guess.get? i = secret.get? i)))

/-- The predicate of a non-exact guess occurrence of the letter c. -/
def misOccP (secret guess : List Char) (c : Char) (q : Nat) : Bool :=
  decide (guess.get? q = some c ∧ ¬(secret.get? q = some c))

/-- The first guess position that holds c but does not match the secret. -/
def firstMisP (secret guess : List Char) (c : Char) : Option Nat :=
  firstIdxBelow (misOccP secret guess c) guess.length

/-- The verdict array after pass 1, described pointwise. -/
def pass1V (secret guess : List Char) (q : Nat) : Verdict :=
  if guess.get? q = secret.get? q then Verdict.Correct else Verdict.Absent

/-- The final verdict of the scorer, described pointwise: Correct on an exact
match; Misplaced exactly at the first non-exact occurrence of its letter when
the secret has unmatched instances of that letter left; Absent otherwise. -/
def specVerdict (secret guess : List Char) (p : Nat) : Verdict :=
  match guess.get? p with
  | none => Verdict.Absent
  | some c =>
    if secret.get? p = some c then Verdict.Correct
    else if firstMisP secret guess c = some p ∧ 0 < misSecretP secret guess c then
      Verdict.Misplaced
    else Verdict.Absent

/-- Whether some non-exact guess occurrence of c lies strictly below pos. -/
def processedB (secret guess : List Char) (pos : Nat) (c : Char) : Bool :=
  (firstIdxBelow (misOccP secret guess c) pos).isSome

/-- The remaining count of letter c that the scorer's map holds just before
pass 2 processes position pos. -/
def expCnt (secret guess : List Char) (pos : Nat) (c : Char) : Int :=
  if processedB secret guess pos c then 0 else (misSecretP secret guess c : Int)

/-! ## CharMap lemmas -/

theorem alistLookup_andModify_self (m : CharMap) (c : Char) (f : Int → Int) :
    alistLookup (andModify m c f) c = (alistLookup m c).map f := by
  induction m with
  | nil => rfl
  | cons kv rest ih =>
    obtain ⟨k, v⟩ := kv
    by_cases hk : k = c
    · subst hk
      simp [andModify, alistLookup]
    · simp [andModify, alistLookup, hk, ih]

theorem alistLookup_andModify_ne (m : CharMap) {c d : Char} (f : Int → Int)
    (h : d ≠ c) : alistLookup (andModify m c f) d = alistLookup m d := by
  induction m with
  | nil => rfl
  | cons kv rest ih =>
    obtain ⟨k, v⟩ := kv
    by_cases hk : k = c
    · subst hk
      have hkd : ¬ (k = d) := fun hh => h hh.symm
      simp [andModify, alistLookup, hkd]
    · by_cases hkd : k = d
      · subst hkd
        simp [andModify, alistLookup, hk]
      · simp [andModify, alistLookup, hk, hkd, ih]

theorem alistLookup_orInsertIncr_self (m : CharMap) (c : Char) :
    alistLookup (orInsertIncr m c) c = some (lookupD m c + 1) := by
  induction m with
  | nil => simp [orInsertIncr, alistLookup, lookupD]
  | cons kv rest ih =>
    obtain ⟨k, v⟩ := kv
    by_cases hk : k = c
    · subst hk
      simp [orInsertIncr, alistLookup, lookupD]
    · simp [orInsertIncr, alistLookup, hk, ih, lookupD]

theorem alistLookup_orInsertIncr_ne (m : CharMap) {c d : Char} (h : d ≠ c) :
    alistLookup (orInsertIncr m c) d = alistLookup m d := by
  induction m with
  | nil =>
    have hcd : ¬ (c = d) := fun hh => h hh.symm
    simp [orInsertIncr, alistLookup, hcd]
  | cons kv rest ih =>
    obtain ⟨k, v⟩ := kv
    by_cases hk : k = c
    · subst hk
      have hkd : ¬ (k = d) := fun hh => h hh.symm
      simp [orInsertIncr, alistLookup, hkd]
    · simp [orInsertIncr, alistLookup, hk, ih]

/-- Number of occurrences of a character in a list. -/
def occCount (l : List Char) (c : Char) : Nat :=
  (l.filter (fun x => x = c)).length

theorem occCount_cons (x : Char) (l : List Char) (c : Char) :
    occCount (x :: l) c = (if x = c then 1 else 0) + occCount l c := by
  unfold occCount
  by_cases hx : x = c <;> simp [List.filter, hx] <;> omega

theorem foldl_orInsertIncr_lookup_mem :
    ∀ (w : List Char) (m : CharMap) (c : Char),
      c ∈ w ∨ (alistLookup m c).isSome →
      alistLookup (w.foldl orInsertIncr m) c = some (lookupD m c + occCount w c) := by
  intro w
  induction w with
  | nil =>
    intro m c h
    rcases h with h | h
    · cases h
    · cases hm : alistLookup m c with
      | none => rw [hm] at h; cases h
      | some v => simp [List.foldl, occCount, lookupD, hm]
  | cons x rest ih =>
    intro m c h
    have hstep : List.foldl orInsertIncr m (x :: rest) =
        rest.foldl orInsertIncr (orInsertIncr m x) := rfl
    rw [hstep, occCount_cons]
    by_cases hx : x = c
    · subst hx
      have : (alistLookup (orInsertIncr m x) x).isSome := by
        rw [alistLookup_orInsertIncr_self]; rfl
      rw [ih (orInsertIncr m x) x (Or.inr this)]
      rw [lookupD, alistLookup_orInsertIncr_self]
      simp [lookupD]
      omega
    · have hmem : c ∈ rest ∨ (alistLookup (orInsertIncr m x) c).isSome := by
        rcases h with h | h
        · rcases List.mem_cons.mp h with h | h
          · exact absurd h.symm hx
          · exact Or.inl h
        · right
          rwa [alistLookup_orInsertIncr_ne m (fun hh => hx hh.symm)]
      rw [ih (orInsertIncr m x) c hmem]
      rw [lookupD, lookupD, alistLookup_orInsertIncr_ne m (fun hh => hx hh.symm)]
      simp [hx]

theorem foldl_orInsertIncr_lookup_not_mem :
    ∀ (w : List Char) (m : CharMap) (c : Char),
      c ∉ w → alistLookup m c = none →
      alistLookup (w.foldl orInsertIncr m) c = none := by
  intro w
  induction w with
  | nil => intro m c _ hm; exact hm
  | cons x rest ih =>
    intro m c h hm
    have hstep : List.foldl orInsertIncr m (x :: rest) =
        rest.foldl orInsertIncr (orInsertIncr m x) := rfl
    rw [hstep]
    have hx : x ≠ c := fun hh => h (hh ▸ List.mem_cons_self x rest)
    apply ih
    · exact fun hc => h (List.mem_cons_of_mem x hc)
    · rwa [alistLookup_orInsertIncr_ne m (fun hh => hx hh.symm)]

theorem create_charmap_lookup_mem {secret : List Char} {c : Char} (h : c ∈ secret) :
    alistLookup (create_charmap secret) c = some ((occCount secret c : Int)) := by
  unfold create_charmap
  rw [foldl_orInsertIncr_lookup_mem secret [] c (Or.inl h)]
  simp [lookupD, alistLookup]

theorem create_charmap_lookup_not_mem {secret : List Char} {c : Char} (h : c ∉ secret) :
    alistLookup (create_charmap secret) c = none :=
  foldl_orInsertIncr_lookup_not_mem secret [] c h rfl

theorem multP_eq_occCount : ∀ (l : List Char) (c : Char), multP l c = occCount l c := by
  intro l
  induction l with
  | nil => intro c; rfl
  | cons x rest ih =>
    intro c
    unfold multP
    rw [List.length_cons, posCount_shift, occCount_cons]
    have h1 : (decide ((x :: rest).get? 0 = some c)) = decide (x = c) := by
      simp [List.get?]
    have h2 : posCount rest.length (fun j => decide ((x :: rest).get? (j + 1) = some c)) =
        multP rest c := by
      apply posCount_congr
      intro i _
      simp [List.get?]
    rw [h1, h2, ih c]
    by_cases hx : x = c <;> simp [hx]

theorem multP_pos_of_mem {l : List Char} {c : Char} (h : c ∈ l) : 0 < multP l c := by
  obtain ⟨i, hi⟩ := List.mem_iff_get?.mp h
  have hlt : i < l.length := by
    by_contra hge
    rw [List.get?_eq_none.mpr (by omega)] at hi
    cases hi
  exact posCount_pos hlt (decide_eq_true hi)

theorem mem_of_multP_pos {l : List Char} {c : Char} (h : 0 < multP l c) : c ∈ l := by
  obtain ⟨p, hp, hP⟩ := posCount_exists h
  have := of_decide_eq_true hP
  exact List.get?_mem this

/-! ## Pass 1 -/

theorem get?_some_of_lt {α : Type} {l : List α} {i : Nat} (h : i < l.length) :
    ∃ b, l.get? i = some b := by
  cases hq : l.get? i with
  | none => exact absurd (List.get?_eq_none.mp hq) (by omega)
  | some b => exact ⟨b, rfl⟩

theorem get?_set_self {α : Type} (l : List α) (a : α) {i : Nat} (h : i < l.length) :
    (l.set i a).get? i = some a := by
  rw [List.get?_set_eq]
  obtain ⟨b, hb⟩ := get?_some_of_lt h
  rw [hb]
  rfl

/-- Number of exact matches of letter c at guess positions at or after pos. -/
def corrFrom (secret guess : List Char) (pos : Nat) (c : Char) : Nat :=
  posCount (guess.length - pos)
    (fun j => decide (guess.get? (pos + j) = some c ∧ secret.get? (pos + j) = some c))

theorem corrP_eq_corrFrom (secret guess : List Char) (c : Char) :
    corrP secret guess c = corrFrom secret guess 0 c := by
  unfold corrP corrFrom
  rw [Nat.sub_zero]
  apply posCount_congr
  intro i _
  rw [Nat.zero_add]

theorem corrFrom_succ (secret guess : List Char) {pos : Nat} (h : pos < guess.length)
    (c : Char) :
    corrFrom secret guess pos c =
      (if guess.get? pos = some c ∧ secret.get? pos = some c then 1 else 0) +
        corrFrom secret guess (pos + 1) c := by
  unfold corrFrom
  have hn : guess.length - pos = (guess.length - (pos + 1)) + 1 := by omega
  rw [hn, posCount_shift]
  congr 1
  · simp
  · apply posCount_congr
    intro i _
    have hidx : pos + (i + 1) = pos + 1 + i := by omega
    rw [hidx]

theorem corrFrom_end (secret guess : List Char) {pos : Nat} (h : guess.length ≤ pos)
    (c : Char) : corrFrom secret guess pos c = 0 := by
  unfold corrFrom
  have : guess.length - pos = 0 := by omega
  rw [this]
  rfl

theorem pass1Aux_spec (secret guess : List Char) (hlen : guess.length = secret.length) :
    ∀ (grest : List Char) (pos : Nat),
      (∀ j, grest.get? j = guess.get? (pos + j)) →
      pos + grest.length = guess.length →
      ∀ (arr : List Verdict) (cnt : CharMap), arr.length = guess.length →
      ∃ arr1 cnt1,
        pass1Aux secret pos grest arr cnt = some (arr1, cnt1) ∧
        arr1.length = guess.length ∧
        (∀ q, q < pos → arr1.get? q = arr.get? q) ∧
        (∀ q, pos ≤ q → q < guess.length →
          arr1.get? q =
            if guess.get? q = secret.get? q then some Verdict.Correct else arr.get? q) ∧
        (∀ c, alistLookup cnt1 c =
          (alistLookup cnt c).map (fun v => v - (corrFrom secret guess pos c : Int))) := by
  intro grest
  induction grest with
  | nil =>
    intro pos hg hgl arr cnt harr
    refine ⟨arr, cnt, rfl, harr, fun q _ => rfl, ?_, ?_⟩
    · intro q hq1 hq2
      exfalso
      simp at hgl
      omega
    · intro c
      rw [corrFrom_end secret guess (by simp at hgl; omega) c]
      cases alistLookup cnt c <;> simp
  | cons g grest' ih =>
    intro pos hg hgl arr cnt harr
    have hgl2 : pos + (grest'.length + 1) = guess.length := by simpa using hgl
    have hpos : pos < guess.length := by omega
    have hgpos : guess.get? pos = some g := (hg 0).symm
    obtain ⟨sc, hsc⟩ := get?_some_of_lt (show pos < secret.length by omega)
    have hg' : ∀ j, grest'.get? j = guess.get? (pos + 1 + j) := by
      intro j
      have h1 := hg (j + 1)
      have h2 : pos + (j + 1) = pos + 1 + j := by omega
      rw [h2] at h1
      exact h1
    have hgl' : pos + 1 + grest'.length = guess.length := by omega
    by_cases hscg : sc = g
    · rw [hscg] at hsc
      obtain ⟨arr1, cnt1, hrun, hlen1, hA, hB, hC⟩ :=
        ih (pos + 1) hg' hgl' (arr.set pos Verdict.Correct)
          (andModify cnt g (fun e => e - 1)) (by rw [List.length_set]; exact harr)
      refine ⟨arr1, cnt1, ?_, hlen1, ?_, ?_, ?_⟩
      · simp only [pass1Aux, hsc]
        exact hrun
      · intro q hq
        rw [hA q (by omega)]
        exact List.get?_set_ne _ _ (by omega)
      · intro q hq1 hq2
        by_cases hqp : q = pos
        · subst hqp
          rw [hgpos, hsc, if_pos rfl, hA q (by omega)]
          exact get?_set_self arr Verdict.Correct (by omega)
        · rw [hB q (by omega) hq2]
          by_cases hcond : guess.get? q = secret.get? q
          · rw [if_pos hcond, if_pos hcond]
          · rw [if_neg hcond, if_neg hcond]
            exact List.get?_set_ne _ _ (by omega)
      · intro c
        rw [hC c]
        by_cases hcg : c = g
        · subst hcg
          rw [alistLookup_andModify_self,
            corrFrom_succ secret guess hpos c, if_pos ⟨hgpos, hsc⟩]
          cases alistLookup cnt c with
          | none => simp
          | some v =>
            simp only [Option.map_some']
            congr 1
            push_cast
            ring
        · have hcf : corrFrom secret guess pos c = corrFrom secret guess (pos + 1) c := by
            rw [corrFrom_succ secret guess hpos c,
              if_neg (fun hh => hcg (Option.some.inj (hgpos ▸ hh.1)).symm)]
            exact Nat.zero_add _
          rw [alistLookup_andModify_ne cnt _ hcg, hcf]
    · obtain ⟨arr1, cnt1, hrun, hlen1, hA, hB, hC⟩ :=
        ih (pos + 1) hg' hgl' arr cnt harr
      refine ⟨arr1, cnt1, ?_, hlen1, ?_, ?_, ?_⟩
      · simp only [pass1Aux, hsc]
        rw [if_neg hscg]
        exact hrun
      · intro q hq
        exact hA q (by omega)
      · intro q hq1 hq2
        by_cases hqp : q = pos
        · subst hqp
          have hcond : ¬ (guess.get? q = secret.get? q) := by
            rw [hgpos, hsc]
            exact fun hh => hscg (Option.some.inj hh).symm
          rw [if_neg hcond]
          exact hA q (by omega)
        · rw [hB q (by omega) hq2]
      · intro c
        have hcond : ¬ (guess.get? pos = some c ∧ secret.get? pos = some c) := by
          rintro ⟨h1, h2⟩
          rw [hgpos] at h1
          rw [hsc] at h2
          exact hscg ((Option.some.inj h2).trans (Option.some.inj h1).symm)
        have hcf : corrFrom secret guess pos c = corrFrom secret guess (pos + 1) c := by
          rw [corrFrom_succ secret guess hpos c, if_neg hcond]
          exact Nat.zero_add _
        rw [hC c, hcf]

/-! ## Pass 2, inner scan -/

/-- Number of eligible secret slots at or after scan index i: suffix positions
holding the letter c whose guess verdict is not Correct. -/
def eligCount (arr : List Verdict) : Nat → List Char → Char → Nat
  | _, [], _ => 0
  | i, ch :: srest, c =>
    (if ¬ (arr.get? i = some Verdict.Correct) ∧ ch = c then 1 else 0) +
      eligCount arr (i + 1) srest c

theorem eligCount_nil (arr : List Verdict) (i : Nat) (c : Char) :
    eligCount arr i [] c = 0 := rfl

theorem eligCount_cons (arr : List Verdict) (i : Nat) (ch : Char) (srest : List Char)
    (c : Char) :
    eligCount arr i (ch :: srest) c =
      (if ¬ (arr.get? i = some Verdict.Correct) ∧ ch = c then 1 else 0) +
        eligCount arr (i + 1) srest c := rfl

theorem eligCount_set {arr : List Verdict} {pos : Nat}
    (h : ¬ (arr.get? pos = some Verdict.Correct)) :
    ∀ (srest : List Char) (i : Nat) (c : Char),
      eligCount (arr.set pos Verdict.Misplaced) i srest c = eligCount arr i srest c := by
  intro srest
  induction srest with
  | nil => intro i c; rfl
  | cons ch srest' ih =>
    intro i c
    unfold eligCount
    rw [ih (i + 1) c]
    congr 1
    by_cases hip : i = pos
    · subst hip
      have h1 : ¬ ((arr.set i Verdict.Misplaced).get? i = some Verdict.Correct) := by
        rw [List.get?_set_eq]
        cases arr.get? i <;> simp
      by_cases hchc : ch = c
      · rw [if_pos ⟨h1, hchc⟩, if_pos ⟨h, hchc⟩]
      · rw [if_neg (fun hh => hchc hh.2), if_neg (fun hh => hchc hh.2)]
    · rw [List.get?_set_ne _ _ (fun hh => hip hh.symm)]

theorem eligCount_zero_of_not_mem {c : Char} :
    ∀ (srest : List Char) (i : Nat) (arr : List Verdict), c ∉ srest →
      eligCount arr i srest c = 0 := by
  intro srest
  induction srest with
  | nil => intro i arr _; rfl
  | cons ch srest' ih =>
    intro i arr h
    unfold eligCount
    have hch : ¬ (ch = c) := fun hh => h (hh ▸ List.mem_cons_self ch srest')
    rw [ih (i + 1) arr (fun hc => h (List.mem_cons_of_mem ch hc))]
    simp [hch]

theorem pass2Inner_spec (c : Char) (pos : Nat) :
    ∀ (srest : List Char) (i : Nat) (arr : List Verdict) (cnt : CharMap),
      i + srest.length ≤ arr.length →
      ¬ (arr.get? pos = some Verdict.Correct) →
      pos < arr.length →
      (∀ m, alistLookup cnt c = some m → 0 ≤ m) →
      (alistLookup cnt c = none → eligCount arr i srest c = 0) →
      ∃ arr2 cnt2,
        pass2Inner c pos i srest arr cnt = some (arr2, cnt2) ∧
        arr2 = (if 0 < min (eligCount arr i srest c : Int) (lookupD cnt c)
          then arr.set pos Verdict.Misplaced else arr) ∧
        (∀ d, d ≠ c → alistLookup cnt2 d = alistLookup cnt d) ∧
        (∀ v, alistLookup cnt c = some v →
          alistLookup cnt2 c = some (v - min (eligCount arr i srest c : Int) v)) ∧
        (alistLookup cnt c = none → cnt2 = cnt) := by
  intro srest
  induction srest with
  | nil =>
    intro i arr cnt _ _ _ hcnt _
    have h0 : 0 ≤ lookupD cnt c := by
      unfold lookupD
      cases hl : alistLookup cnt c with
      | none => simp
      | some m => simpa using hcnt m hl
    refine ⟨arr, cnt, rfl, ?_, fun d _ => rfl, ?_, fun _ => rfl⟩
    · rw [eligCount_nil,
        if_neg (show ¬ ((0:Int) < min (((0:Nat)):Int) (lookupD cnt c)) by push_cast; omega)]
    · intro w hw
      have hw0 : 0 ≤ w := hcnt w hw
      rw [eligCount_nil, hw]
      congr 1
      push_cast
      omega
  | cons ch srest' ih =>
    intro i arr cnt hin hposA hposLt hcnt hdom
    obtain ⟨v, hvi⟩ := get?_some_of_lt (show i < arr.length by simp at hin; omega)
    by_cases hv : v = Verdict.Correct
    · subst hv
      have helig : eligCount arr i (ch :: srest') c = eligCount arr (i + 1) srest' c := by
        rw [eligCount_cons, if_neg (fun hh => hh.1 hvi)]
        exact Nat.zero_add _
      obtain ⟨arr2, cnt2, hrun, harr2, hne, hself, hnone⟩ :=
        ih (i + 1) arr cnt (by simp at hin; omega) hposA hposLt hcnt
          (fun h => by rw [← helig]; exact hdom h)
      refine ⟨arr2, cnt2, ?_, ?_, hne, ?_, hnone⟩
      · simp only [pass2Inner, hvi]
        exact hrun
      · rw [harr2, helig]
      · intro w hw
        rw [hself w hw, helig]
    · by_cases hch : ch = c
      · have helig : eligCount arr i (ch :: srest') c =
            1 + eligCount arr (i + 1) srest' c := by
          rw [eligCount_cons,
            if_pos ⟨fun hh => hv (Option.some.inj (hvi.symm.trans hh)), hch⟩]
        cases hl : alistLookup cnt c with
        | none =>
          exfalso
          have := hdom hl
          rw [helig] at this
          omega
        | some m =>
          have hm0 : 0 ≤ m := hcnt m hl
          by_cases hmpos : 0 < m
          · -- mark and decrement
            have hposA' : ¬ ((arr.set pos Verdict.Misplaced).get? pos = some Verdict.Correct) := by
              rw [List.get?_set_eq]
              cases arr.get? pos <;> simp
            obtain ⟨arr2, cnt2, hrun, harr2, hne, hself, hnone⟩ :=
              ih (i + 1) (arr.set pos Verdict.Misplaced) (andModify cnt c (fun e => e - 1))
                (by rw [List.length_set]; simp at hin; omega) hposA'
                (by rw [List.length_set]; exact hposLt)
                (by
                  intro m' hm'
                  rw [alistLookup_andModify_self, hl] at hm'
                  simp at hm'
                  omega)
                (by
                  intro hcontra
                  rw [alistLookup_andModify_self, hl] at hcontra
                  cases hcontra)
            refine ⟨arr2, cnt2, ?_, ?_, ?_, ?_, ?_⟩
            · simp only [pass2Inner, hvi, hl]
              rw [if_neg hv, if_pos hch, if_pos hmpos]
              exact hrun
            · rw [harr2]
              have hset : ∀ b : Bool, (if b = true then
                  (arr.set pos Verdict.Misplaced).set pos Verdict.Misplaced
                  else arr.set pos Verdict.Misplaced) = arr.set pos Verdict.Misplaced := by
                intro b
                cases b <;> simp [List.set_set]
              rw [eligCount_set hposA]
              have hcond : (0 : Int) < min (eligCount arr i (ch :: srest') c : Int)
                  (lookupD cnt c) := by
                rw [helig, lookupD, hl]
                push_cast
                simp
                omega
              rw [if_pos hcond]
              by_cases hc2 : (0 : Int) < min (eligCount arr (i + 1) srest' c : Int)
                  (lookupD (andModify cnt c (fun e => e - 1)) c)
              · rw [if_pos hc2, List.set_set]
              · rw [if_neg hc2]
            · intro d hd
              rw [hne d hd, alistLookup_andModify_ne cnt _ hd]
            · intro w hw
              have hwm : w = m := (Option.some.inj hw).symm
              have hmod : alistLookup (andModify cnt c (fun e => e - 1)) c = some (m - 1) := by
                rw [alistLookup_andModify_self, hl]
                rfl
              rw [hwm, hself (m - 1) hmod, eligCount_set hposA, helig]
              congr 1
              push_cast
              omega
            · intro hcontra
              exact Option.noConfusion hcontra
          · -- count exhausted: no action
            have hmz : m = 0 := by omega
            subst hmz
            obtain ⟨arr2, cnt2, hrun, harr2, hne, hself, hnone⟩ :=
              ih (i + 1) arr cnt (by simp at hin; omega) hposA hposLt hcnt
                (fun h => by rw [hl] at h; cases h)
            refine ⟨arr2, cnt2, ?_, ?_, hne, ?_, ?_⟩
            · simp only [pass2Inner, hvi, hl]
              rw [if_neg hv, if_pos hch, if_neg hmpos]
              exact hrun
            · rw [harr2]
              have hld : lookupD cnt c = 0 := by rw [lookupD, hl]; rfl
              have hz : ∀ e : Nat, min ((e : Nat) : Int) (lookupD cnt c) = 0 := by
                intro e
                rw [hld]
                omega
              rw [hz, hz]
            · intro w hw
              have hwm : w = 0 := (Option.some.inj hw).symm
              rw [hwm, hself 0 hl]
              congr 1
              omega
            · intro hcontra
              exact Option.noConfusion hcontra
      · -- letter mismatch at this slot
        have helig : eligCount arr i (ch :: srest') c = eligCount arr (i + 1) srest' c := by
          rw [eligCount_cons, if_neg (fun hh => hch hh.2)]
          exact Nat.zero_add _
        obtain ⟨arr2, cnt2, hrun, harr2, hne, hself, hnone⟩ :=
          ih (i + 1) arr cnt (by simp at hin; omega) hposA hposLt hcnt
            (fun h => by rw [← helig]; exact hdom h)
        refine ⟨arr2, cnt2, ?_, ?_, hne, ?_, hnone⟩
        · simp only [pass2Inner, hvi]
          rw [if_neg hv, if_neg hch]
          exact hrun
        · rw [harr2, helig]
        · intro w hw
          rw [hself w hw, helig]

/-! ## Spec-side counting lemmas -/

/-- Unmatched secret occurrences of c at scan positions at or after i. -/
def misFrom (secret guess : List Char) (i : Nat) (c : Char) : Nat :=
  posCount (secret.length - i)
    (fun j => decide (secret.get? (i + j) = some c ∧ ¬(guess.get? (i + j) = secret.get? (i + j))))

theorem misFrom_succ {secret guess : List Char} {i : Nat} (h : i < secret.length) (c : Char) :
    misFrom secret guess i c =
      (if secret.get? i = some c ∧ ¬(guess.get? i = secret.get? i) then 1 else 0) +
        misFrom secret guess (i + 1) c := by
  unfold misFrom
  have hn : secret.length - i = (secret.length - (i + 1)) + 1 := by omega
  rw [hn, posCount_shift]
  congr 1
  · simp
  · apply posCount_congr
    intro j _
    have hidx : i + (j + 1) = i + 1 + j := by omega
    rw [hidx]

theorem misFrom_end {secret guess : List Char} {i : Nat} (h : secret.length ≤ i) (c : Char) :
    misFrom secret guess i c = 0 := by
  unfold misFrom
  have : secret.length - i = 0 := by omega
  rw [this]
  rfl

theorem misSecretP_eq_misFrom (secret guess : List Char) (c : Char) :
    misSecretP secret guess c = misFrom secret guess 0 c := by
  unfold misSecretP misFrom
  rw [Nat.sub_zero]
  apply posCount_congr
  intro i _
  rw [Nat.zero_add]

theorem misSecretP_zero_of_not_mem {secret : List Char} (guess : List Char) {c : Char}
    (h : c ∉ secret) : misSecretP secret guess c = 0 := by
  apply posCount_eq_zero
  intro i _
  cases hq : secret.get? i with
  | none => simp
  | some s =>
    have hs : ¬ (s = c) := fun hh => h (hh ▸ List.get?_mem hq)
    simp [hq, hs]

theorem multP_partition (secret guess : List Char) (hlen : guess.length = secret.length)
    (c : Char) :
    multP secret c = corrP secret guess c + misSecretP secret guess c := by
  unfold multP corrP misSecretP
  rw [hlen]
  have hsplit := posCount_or_disjoint (n := secret.length)
    (P := fun p => decide (guess.get? p = some c ∧ secret.get? p = some c))
    (Q := fun p => decide (secret.get? p = some c ∧ ¬(guess.get? p = secret.get? p)))
    (by
      intro i _ hh
      obtain ⟨h1, h2⟩ := hh
      rw [decide_eq_true_eq] at h1 h2
      exact h2.2 (h1.1.trans h1.2.symm))
  rw [← hsplit]
  apply posCount_congr
  intro i _
  show decide (secret.get? i = some c) =
    (decide (guess.get? i = some c ∧ secret.get? i = some c) ||
      decide (secret.get? i = some c ∧ ¬(guess.get? i = secret.get? i)))
  by_cases hs : secret.get? i = some c
  · by_cases hg : guess.get? i = secret.get? i
    · have hgc : guess.get? i = some c := hg.trans hs
      rw [decide_eq_true hs,
        decide_eq_true (show guess.get? i = some c ∧ secret.get? i = some c from ⟨hgc, hs⟩),
        Bool.true_or]
    · have h2 : ¬ (guess.get? i = some c ∧ secret.get? i = some c) :=
        fun hh => hg (hh.1.trans hh.2.symm)
      rw [decide_eq_true hs, decide_eq_false h2,
        decide_eq_true
          (show secret.get? i = some c ∧ ¬(guess.get? i = secret.get? i) from ⟨hs, hg⟩),
        Bool.false_or]
  · have h2 : ¬ (guess.get? i = some c ∧ secret.get? i = some c) := fun hh => hs hh.2
    have h3 : ¬ (secret.get? i = some c ∧ ¬(guess.get? i = secret.get? i)) :=
      fun hh => hs hh.1
    rw [decide_eq_false hs, decide_eq_false h2, decide_eq_false h3, Bool.false_or]

theorem corrP_le_multP (secret guess : List Char) (hlen : guess.length = secret.length)
    (c : Char) : corrP secret guess c ≤ multP secret c := by
  rw [multP_partition secret guess hlen c]
  omega

theorem eligCount_eq_misFrom {secret guess : List Char} {arr : List Verdict} {c : Char}
    (hCorr : ∀ q, q < secret.length →
      (arr.get? q = some Verdict.Correct ↔ guess.get? q = secret.get? q)) :
    ∀ (srest : List Char) (i : Nat),
      (∀ j, srest.get? j = secret.get? (i + j)) →
      i + srest.length = secret.length →
      eligCount arr i srest c = misFrom secret guess i c := by
  intro srest
  induction srest with
  | nil =>
    intro i _ hil
    rw [eligCount_nil, misFrom_end (by simp at hil; omega) c]
  | cons ch srest' ih =>
    intro i hs hil
    have hil2 : i + (srest'.length + 1) = secret.length := by simpa using hil
    have hi : i < secret.length := by omega
    have hsi : secret.get? i = some ch := (hs 0).symm
    have hs' : ∀ j, srest'.get? j = secret.get? (i + 1 + j) := by
      intro j
      have h1 := hs (j + 1)
      have h2 : i + (j + 1) = i + 1 + j := by omega
      rw [h2] at h1
      exact h1
    rw [eligCount_cons, misFrom_succ hi c, ih (i + 1) hs' (by omega)]
    congr 1
    by_cases hc1 : secret.get? i = some c ∧ ¬(guess.get? i = secret.get? i)
    · rw [if_pos hc1]
      rw [if_pos ⟨fun hh => hc1.2 ((hCorr i hi).mp hh),
        Option.some.inj (hsi.symm.trans hc1.1)⟩]
    · rw [if_neg hc1]
      rw [if_neg (show ¬ (¬ (arr.get? i = some Verdict.Correct) ∧ ch = c) from
        fun hh => hc1 ⟨hh.2 ▸ hsi, fun hg => hh.1 ((hCorr i hi).mpr hg)⟩)]

/-! ## Lemmas about the pointwise verdict description -/

theorem expCnt_nonneg (secret guess : List Char) (pos : Nat) (c : Char) :
    0 ≤ expCnt secret guess pos c := by
  unfold expCnt
  by_cases h : processedB secret guess pos c <;> simp [h]

theorem processedB_succ (secret guess : List Char) (pos : Nat) (c : Char) :
    processedB secret guess (pos + 1) c =
      (processedB secret guess pos c || misOccP secret guess c pos) := by
  unfold processedB
  rw [firstIdxBelow_succ]
  cases hm : firstIdxBelow (misOccP secret guess c) pos with
  | some r => simp
  | none =>
    cases hP : misOccP secret guess c pos with
    | true => simp [hP]
    | false => simp [hP]

theorem specVerdict_eq_of_get {secret guess : List Char} {p : Nat} {c : Char}
    (h : guess.get? p = some c) :
    specVerdict secret guess p =
      (if secret.get? p = some c then Verdict.Correct
      else if firstMisP secret guess c = some p ∧ 0 < misSecretP secret guess c then
        Verdict.Misplaced
      else Verdict.Absent) := by
  unfold specVerdict
  rw [h]

theorem pass1V_correct_iff (secret guess : List Char) (q : Nat) :
    pass1V secret guess q = Verdict.Correct ↔ guess.get? q = secret.get? q := by
  unfold pass1V
  by_cases h : guess.get? q = secret.get? q <;> simp [h]

theorem specVerdict_correct_iff (secret guess : List Char) {q : Nat}
    (hq : q < guess.length) :
    specVerdict secret guess q = Verdict.Correct ↔ guess.get? q = secret.get? q := by
  obtain ⟨g, hg⟩ := get?_some_of_lt hq
  rw [specVerdict_eq_of_get hg]
  by_cases hs : secret.get? q = some g
  · rw [if_pos hs]
    exact ⟨fun _ => hg.trans hs.symm, fun _ => rfl⟩
  · rw [if_neg hs]
    constructor
    · intro hh
      by_cases hcond : firstMisP secret guess g = some q ∧ 0 < misSecretP secret guess g
      · rw [if_pos hcond] at hh
        cases hh
      · rw [if_neg hcond] at hh
        cases hh
    · intro hh
      exact absurd (hg.symm.trans hh).symm hs

theorem firstMisP_of_processed {secret guess : List Char} {pos : Nat} {c : Char}
    (hpos : pos ≤ guess.length) (h : processedB secret guess pos c = true) :
    ∃ r, r < pos ∧ firstMisP secret guess c = some r := by
  unfold processedB at h
  cases hm : firstIdxBelow (misOccP secret guess c) pos with
  | none => rw [hm] at h; cases h
  | some r =>
    obtain ⟨h1, h2, h3⟩ := firstIdxBelow_some hm
    exact ⟨r, h2, firstIdxBelow_of_first h1 h3 (by omega)⟩

theorem firstMisP_eq_self {secret guess : List Char} {pos : Nat} {c : Char}
    (hpos : pos < guess.length) (hP : misOccP secret guess c pos = true)
    (h : processedB secret guess pos c = false) :
    firstMisP secret guess c = some pos := by
  unfold processedB at h
  cases hm : firstIdxBelow (misOccP secret guess c) pos with
  | some r => rw [hm] at h; cases h
  | none =>
    exact firstIdxBelow_of_first hP (firstIdxBelow_none.mp hm) hpos

/-! ## Pass 2, outer loop -/

theorem pass1V_absent {secret guess : List Char} {q : Nat}
    (h : ¬ (guess.get? q = secret.get? q)) :
    pass1V secret guess q = Verdict.Absent := by
  unfold pass1V
  rw [if_neg h]

theorem pass2Aux_spec (secret guess : List Char) (hlen : guess.length = secret.length) :
    ∀ (grest : List Char) (pos : Nat),
      (∀ j, grest.get? j = guess.get? (pos + j)) →
      pos + grest.length = guess.length →
      ∀ (arr : List Verdict) (cnt : CharMap),
      arr.length = guess.length →
      (∀ q, q < pos → arr.get? q = some (specVerdict secret guess q)) →
      (∀ q, pos ≤ q → q < guess.length → arr.get? q = some (pass1V secret guess q)) →
      (∀ c, c ∈ secret → alistLookup cnt c = some (expCnt secret guess pos c)) →
      (∀ c, c ∉ secret → alistLookup cnt c = none) →
      ∃ arr2 cnt2,
        pass2Aux secret pos grest arr cnt = some (arr2, cnt2) ∧
        arr2.length = guess.length ∧
        (∀ q, q < guess.length → arr2.get? q = some (specVerdict secret guess q)) ∧
        (∀ c, 0 ≤ lookupD cnt2 c) := by
  intro grest
  induction grest with
  | nil =>
    intro pos hg hgl arr cnt harr hdone htodo hcnt hnotmem
    refine ⟨arr, cnt, rfl, harr, ?_, ?_⟩
    · intro q hq
      exact hdone q (by simp at hgl; omega)
    · intro c
      by_cases hmem : c ∈ secret
      · rw [lookupD, hcnt c hmem]
        exact expCnt_nonneg secret guess pos c
      · rw [lookupD, hnotmem c hmem]
        simp
  | cons g grest' ih =>
    intro pos hg hgl arr cnt harr hdone htodo hcnt hnotmem
    have hgl2 : pos + (grest'.length + 1) = guess.length := by simpa using hgl
    have hpos : pos < guess.length := by omega
    have hgpos : guess.get? pos = some g := (hg 0).symm
    have hg' : ∀ j, grest'.get? j = guess.get? (pos + 1 + j) := by
      intro j
      have h1 := hg (j + 1)
      have h2 : pos + (j + 1) = pos + 1 + j := by omega
      rw [h2] at h1
      exact h1
    have hgl' : pos + 1 + grest'.length = guess.length := by omega
    have hCorr : ∀ q, q < secret.length →
        (arr.get? q = some Verdict.Correct ↔ guess.get? q = secret.get? q) := by
      intro q hq
      have hq2 : q < guess.length := by omega
      by_cases hqp : q < pos
      · rw [hdone q hqp]
        constructor
        · intro hh
          exact (specVerdict_correct_iff secret guess hq2).mp (Option.some.inj hh)
        · intro hh
          exact congrArg some ((specVerdict_correct_iff secret guess hq2).mpr hh)
      · rw [htodo q (by omega) hq2]
        constructor
        · intro hh
          exact (pass1V_correct_iff secret guess q).mp (Option.some.inj hh)
        · intro hh
          exact congrArg some ((pass1V_correct_iff secret guess q).mpr hh)
    by_cases hc : arr.get? pos = some Verdict.Correct
    · -- this position was an exact match: pass 2 skips it
      have hmatch : guess.get? pos = secret.get? pos := (hCorr pos (by omega)).mp hc
      have hdone' : ∀ q, q < pos + 1 → arr.get? q = some (specVerdict secret guess q) := by
        intro q hq
        by_cases hqp : q < pos
        · exact hdone q hqp
        · have hqe : q = pos := by omega
          subst hqe
          rw [hc]
          exact congrArg some ((specVerdict_correct_iff secret guess hpos).mpr hmatch).symm
      have hcnt' : ∀ c, c ∈ secret →
          alistLookup cnt c = some (expCnt secret guess (pos + 1) c) := by
        intro c hcm
        rw [hcnt c hcm]
        congr 1
        unfold expCnt
        have hmo : misOccP secret guess c pos = false := by
          unfold misOccP
          by_cases hgc : guess.get? pos = some c
          · have hsc : secret.get? pos = some c := hmatch.symm.trans hgc
            exact decide_eq_false (fun hh => hh.2 hsc)
          · exact decide_eq_false (fun hh => hgc hh.1)
        rw [processedB_succ, hmo, Bool.or_false]
      obtain ⟨arr2, cnt2, hrun, hlen2, hptw, hnn⟩ :=
        ih (pos + 1) hg' hgl' arr cnt harr hdone'
          (fun q hq1 hq2 => htodo q (by omega) hq2) hcnt' hnotmem
      refine ⟨arr2, cnt2, ?_, hlen2, hptw, hnn⟩
      simp only [pass2Aux, if_pos hc]
      exact hrun
    · -- not Correct here: the inner scan runs for letter g
      have hnotc : ¬ (guess.get? pos = secret.get? pos) :=
        fun hh => hc ((hCorr pos (by omega)).mpr hh)
      have hsneg : ¬ (secret.get? pos = some g) := fun hh => hnotc (hgpos.trans hh.symm)
      have hmo : misOccP secret guess g pos = true := by
        unfold misOccP
        exact decide_eq_true ⟨hgpos, hsneg⟩
      have hpassAbs : arr.get? pos = some Verdict.Absent := by
        rw [htodo pos (Nat.le_refl pos) hpos, pass1V_absent hnotc]
      obtain ⟨arrI, cntI, hrunI, harrI, hneI, hselfI, hnoneI⟩ :=
        pass2Inner_spec g pos secret 0 arr cnt (by omega) hc (by omega)
          (fun m hm => by
            by_cases hmem : g ∈ secret
            · rw [hcnt g hmem] at hm
              rw [← Option.some.inj hm]
              exact expCnt_nonneg secret guess pos g
            · rw [hnotmem g hmem] at hm
              cases hm)
          (fun hm => by
            by_cases hmem : g ∈ secret
            · rw [hcnt g hmem] at hm
              cases hm
            · exact eligCount_zero_of_not_mem secret 0 arr hmem)
      -- facts about expCnt at pos + 1 for letters other than g
      have hcnt_ne : ∀ c, c ≠ g → expCnt secret guess (pos + 1) c = expCnt secret guess pos c := by
        intro c hcg
        unfold expCnt
        have hmoc : misOccP secret guess c pos = false := by
          unfold misOccP
          exact decide_eq_false
            (fun hh => hcg (Option.some.inj (hgpos.symm.trans hh.1)).symm)
        rw [processedB_succ, hmoc, Bool.or_false]
      by_cases hgmem : g ∈ secret
      · -- the guessed letter occurs in the secret
        have hlookg : alistLookup cnt g = some (expCnt secret guess pos g) := hcnt g hgmem
        have hE : eligCount arr 0 secret g = misSecretP secret guess g := by
          rw [eligCount_eq_misFrom hCorr secret 0 (fun j => by rw [Nat.zero_add])
            (Nat.zero_add secret.length)]
          exact (misSecretP_eq_misFrom secret guess g).symm
        have hproc2 : processedB secret guess (pos + 1) g = true := by
          rw [processedB_succ, hmo, Bool.or_true]
        have hexp2 : expCnt secret guess (pos + 1) g = 0 := by
          unfold expCnt
          rw [if_pos hproc2]
        cases hproc : processedB secret guess pos g with
        | true =>
          -- g already consumed earlier: count is 0, nothing happens
          have hexp : expCnt secret guess pos g = 0 := by
            unfold expCnt
            rw [if_pos hproc]
          have hld : lookupD cnt g = 0 := by
            rw [lookupD, hlookg, hexp]
            rfl
          rw [hexp] at hlookg
          have harrI2 : arrI = arr := by
            rw [harrI, hld, if_neg (by omega :
              ¬ ((0:Int) < min ((eligCount arr 0 secret g : Nat) : Int) 0))]
          have hcg : alistLookup cntI g = some 0 := by
            have h1 := hselfI 0 hlookg
            rw [h1]
            congr 1
            omega
          have hfm : ∃ r, r < pos ∧ firstMisP secret guess g = some r :=
            firstMisP_of_processed (by omega) hproc
          have hspecAbs : specVerdict secret guess pos = Verdict.Absent := by
            obtain ⟨r, hr1, hr2⟩ := hfm
            rw [specVerdict_eq_of_get hgpos, if_neg hsneg,
              if_neg (fun hh => by
                have : r = pos := Option.some.inj (hr2.symm.trans hh.1)
                omega)]
          have hdone' : ∀ q, q < pos + 1 → arr.get? q = some (specVerdict secret guess q) := by
            intro q hq
            by_cases hqp : q < pos
            · exact hdone q hqp
            · have hqe : q = pos := by omega
              subst hqe
              rw [hpassAbs, hspecAbs]
          have hcnt' : ∀ c, c ∈ secret →
              alistLookup cntI c = some (expCnt secret guess (pos + 1) c) := by
            intro c hcm
            by_cases hcg2 : c = g
            · subst hcg2
              rw [hcg, hexp2]
            · rw [hneI c hcg2, hcnt c hcm, hcnt_ne c hcg2]
          have hnotmem' : ∀ c, c ∉ secret → alistLookup cntI c = none := by
            intro c hcm
            have hcg2 : c ≠ g := fun hh => hcm (hh ▸ hgmem)
            rw [hneI c hcg2, hnotmem c hcm]
          obtain ⟨arr2, cnt2, hrun, hlen2, hptw, hnn⟩ :=
            ih (pos + 1) hg' hgl' arr cntI harr hdone'
              (fun q hq1 hq2 => htodo q (by omega) hq2) hcnt' hnotmem'
          refine ⟨arr2, cnt2, ?_, hlen2, hptw, hnn⟩
          simp only [pass2Aux, if_neg hc]
          rw [hrunI, harrI2]
          exact hrun
        | false =>
          -- first unmatched occurrence of g: consume all remaining instances
          have hexp : expCnt secret guess pos g = (misSecretP secret guess g : Int) := by
            unfold expCnt
            rw [if_neg (by rw [hproc]; exact Bool.false_ne_true)]
          have hld : lookupD cnt g = (misSecretP secret guess g : Int) := by
            rw [lookupD, hlookg, hexp]
            rfl
          rw [hexp] at hlookg
          have hfirst : firstMisP secret guess g = some pos :=
            firstMisP_eq_self hpos hmo hproc
          have hcg : alistLookup cntI g = some 0 := by
            have h1 := hselfI (misSecretP secret guess g : Int) hlookg
            rw [h1, hE]
            congr 1
            omega
          have hcnt' : ∀ c, c ∈ secret →
              alistLookup cntI c = some (expCnt secret guess (pos + 1) c) := by
            intro c hcm
            by_cases hcg2 : c = g
            · subst hcg2
              rw [hcg, hexp2]
            · rw [hneI c hcg2, hcnt c hcm, hcnt_ne c hcg2]
          have hnotmem' : ∀ c, c ∉ secret → alistLookup cntI c = none := by
            intro c hcm
            have hcg2 : c ≠ g := fun hh => hcm (hh ▸ hgmem)
            rw [hneI c hcg2, hnotmem c hcm]
          by_cases hK : 0 < misSecretP secret guess g
          · -- there are unmatched instances: this position is marked Misplaced
            have harrI2 : arrI = arr.set pos Verdict.Misplaced := by
              rw [harrI, hld, hE, if_pos (by push_cast; omega)]
            have hspecMis : specVerdict secret guess pos = Verdict.Misplaced := by
              rw [specVerdict_eq_of_get hgpos, if_neg hsneg, if_pos ⟨hfirst, hK⟩]
            have hdone' : ∀ q, q < pos + 1 →
                arrI.get? q = some (specVerdict secret guess q) := by
              intro q hq
              by_cases hqp : q < pos
              · rw [harrI2, List.get?_set_ne _ _ (by omega)]
                exact hdone q hqp
              · have hqe : q = pos := by omega
                subst hqe
                rw [harrI2, get?_set_self arr Verdict.Misplaced (by omega), hspecMis]
            have htodo' : ∀ q, pos + 1 ≤ q → q < guess.length →
                arrI.get? q = some (pass1V secret guess q) := by
              intro q hq1 hq2
              rw [harrI2, List.get?_set_ne _ _ (by omega)]
              exact htodo q (by omega) hq2
            obtain ⟨arr2, cnt2, hrun, hlen2, hptw, hnn⟩ :=
              ih (pos + 1) hg' hgl' arrI cntI
                (by rw [harrI2, List.length_set]; exact harr) hdone' htodo' hcnt' hnotmem'
            refine ⟨arr2, cnt2, ?_, hlen2, hptw, hnn⟩
            simp only [pass2Aux, if_neg hc]
            rw [hrunI]
            exact hrun
          · -- no unmatched instance left: stays Absent
            have hKz : misSecretP secret guess g = 0 := by omega
            have harrI2 : arrI = arr := by
              rw [harrI, hld, hE, hKz, if_neg (by push_cast; omega)]
            have hspecAbs : specVerdict secret guess pos = Verdict.Absent := by
              rw [specVerdict_eq_of_get hgpos, if_neg hsneg, if_neg (fun hh => hK hh.2)]
            have hdone' : ∀ q, q < pos + 1 → arr.get? q = some (specVerdict secret guess q) := by
              intro q hq
              by_cases hqp : q < pos
              · exact hdone q hqp
              · have hqe : q = pos := by omega
                subst hqe
                rw [hpassAbs, hspecAbs]
            obtain ⟨arr2, cnt2, hrun, hlen2, hptw, hnn⟩ :=
              ih (pos + 1) hg' hgl' arr cntI harr hdone'
                (fun q hq1 hq2 => htodo q (by omega) hq2) hcnt' hnotmem'
            refine ⟨arr2, cnt2, ?_, hlen2, hptw, hnn⟩
            simp only [pass2Aux, if_neg hc]
            rw [hrunI, harrI2]
            exact hrun
      · -- the guessed letter does not occur in the secret at all
        have hlookg : alistLookup cnt g = none := hnotmem g hgmem
        have hE : eligCount arr 0 secret g = 0 :=
          eligCount_zero_of_not_mem secret 0 arr hgmem
        have hcntI : cntI = cnt := hnoneI hlookg
        have hld : lookupD cnt g = 0 := by
          rw [lookupD, hlookg]
          rfl
        have harrI2 : arrI = arr := by
          rw [harrI, hld, hE, if_neg (by push_cast; omega)]
        have hKz : misSecretP secret guess g = 0 := misSecretP_zero_of_not_mem guess hgmem
        have hspecAbs : specVerdict secret guess pos = Verdict.Absent := by
          rw [specVerdict_eq_of_get hgpos, if_neg hsneg,
            if_neg (fun hh => by rw [hKz] at hh; exact absurd hh.2 (by omega))]
        have hdone' : ∀ q, q < pos + 1 → arr.get? q = some (specVerdict secret guess q) := by
          intro q hq
          by_cases hqp : q < pos
          · exact hdone q hqp
          · have hqe : q = pos := by omega
            subst hqe
            rw [hpassAbs, hspecAbs]
        have hcnt' : ∀ c, c ∈ secret →
            alistLookup cnt c = some (expCnt secret guess (pos + 1) c) := by
          intro c hcm
          have hcg2 : c ≠ g := fun hh => hgmem (hh ▸ hcm)
          rw [hcnt c hcm, hcnt_ne c hcg2]
        obtain ⟨arr2, cnt2, hrun, hlen2, hptw, hnn⟩ :=
          ih (pos + 1) hg' hgl' arr cnt harr hdone'
            (fun q hq1 hq2 => htodo q (by omega) hq2) hcnt' hnotmem
        refine ⟨arr2, cnt2, ?_, hlen2, hptw, hnn⟩
        simp only [pass2Aux, if_neg hc]
        rw [hrunI, harrI2, hcntI]
        exact hrun

/-! ## Pass 3 and the full scorer -/

theorem pass3Aux_mem (x : Char) :
    ∀ (grest : List Char) (pos : Nat) (arr : List Verdict) (gl : Finset Char),
      x ∈ pass3Aux pos grest arr gl ↔ x ∈ gl ∨ ∃ j, j < grest.length ∧
        grest.get? j = some x ∧
        ¬(arr.get? (pos + j) = some Verdict.Correct ∨
          arr.get? (pos + j) = some Verdict.Misplaced) := by
  intro grest
  induction grest with
  | nil =>
    intro pos arr gl
    simp [pass3Aux]
  | cons c grest' ih =>
    intro pos arr gl
    by_cases hcond : arr.get? pos = some Verdict.Correct ∨
        arr.get? pos = some Verdict.Misplaced
    · rw [show pass3Aux pos (c :: grest') arr gl = pass3Aux (pos + 1) grest' arr gl from by
        simp only [pass3Aux, if_pos hcond]]
      rw [ih (pos + 1) arr gl]
      constructor
      · rintro (h | ⟨j, hj, hjx, hjc⟩)
        · exact Or.inl h
        · refine Or.inr ⟨j + 1, by simpa using hj, hjx, ?_⟩
          have hidx : pos + (j + 1) = pos + 1 + j := by omega
          rw [hidx]
          exact hjc
      · rintro (h | ⟨j, hj, hjx, hjc⟩)
        · exact Or.inl h
        · cases j with
          | zero => exact absurd hcond hjc
          | succ j' =>
            refine Or.inr ⟨j', by simpa using hj, hjx, ?_⟩
            have hidx : pos + 1 + j' = pos + (j' + 1) := by omega
            rw [hidx]
            exact hjc
    · rw [show pass3Aux pos (c :: grest') arr gl =
          pass3Aux (pos + 1) grest' arr (insert c gl) from by
        simp only [pass3Aux, if_neg hcond]]
      rw [ih (pos + 1) arr (insert c gl)]
      constructor
      · rintro (h | ⟨j, hj, hjx, hjc⟩)
        · rcases Finset.mem_insert.mp h with h1 | h1
          · exact Or.inr ⟨0, Nat.succ_pos grest'.length, congrArg some h1.symm, hcond⟩
          · exact Or.inl h1
        · refine Or.inr ⟨j + 1, by simpa using hj, hjx, ?_⟩
          have hidx : pos + (j + 1) = pos + 1 + j := by omega
          rw [hidx]
          exact hjc
      · rintro (h | ⟨j, hj, hjx, hjc⟩)
        · exact Or.inl (Finset.mem_insert_of_mem h)
        · cases j with
          | zero =>
            have hx : x = c := (Option.some.inj hjx).symm
            exact Or.inl (Finset.mem_insert.mpr (Or.inl hx))
          | succ j' =>
            refine Or.inr ⟨j', by simpa using hj, hjx, ?_⟩
            have hidx : pos + 1 + j' = pos + (j' + 1) := by omega
            rw [hidx]
            exact hjc

theorem pass3Aux_subset (gl : Finset Char) (grest : List Char) (pos : Nat)
    (arr : List Verdict) : gl ⊆ pass3Aux pos grest arr gl := by
  intro x hx
  exact (pass3Aux_mem x grest pos arr gl).mpr (Or.inl hx)

/-- The main characterization of colorize_guess: it succeeds on equal-length
input, the verdict at each position is specVerdict, and the new
guessed_letters set is the old one plus every letter with an Absent
occurrence in the guess. -/
theorem colorize_guess_spec (secret guess : List Char) (gl : Finset Char)
    (hlen : guess.length = secret.length) :
    ∃ arr st, colorize_guess secret guess gl = some (arr, st) ∧
      arr.length = guess.length ∧
      (∀ q, q < guess.length → arr.get? q = some (specVerdict secret guess q)) ∧
      (∀ x, x ∈ st ↔ x ∈ gl ∨ ∃ q, q < guess.length ∧ guess.get? q = some x ∧
        specVerdict secret guess q = Verdict.Absent) := by
  obtain ⟨arr1, cnt1, hrun1, hlen1, hA1, hB1, hC1⟩ :=
    pass1Aux_spec secret guess hlen guess 0 (fun j => by rw [Nat.zero_add])
      (Nat.zero_add guess.length) (guess.map fun _ => Verdict.Absent)
      (create_charmap secret) (by rw [List.length_map])
  have harr1 : ∀ q, q < guess.length → arr1.get? q = some (pass1V secret guess q) := by
    intro q hq
    rw [hB1 q (Nat.zero_le q) hq]
    unfold pass1V
    by_cases hcond : guess.get? q = secret.get? q
    · rw [if_pos hcond, if_pos hcond]
    · rw [if_neg hcond, if_neg hcond, List.get?_map]
      obtain ⟨b, hb⟩ := get?_some_of_lt hq
      rw [hb]
      rfl
  have hcnt1 : ∀ c, c ∈ secret →
      alistLookup cnt1 c = some (expCnt secret guess 0 c) := by
    intro c hcm
    rw [hC1 c, create_charmap_lookup_mem hcm]
    have hmult : occCount secret c = multP secret c := (multP_eq_occCount secret c).symm
    have hpart := multP_partition secret guess hlen c
    have hexp : expCnt secret guess 0 c = (misSecretP secret guess c : Int) := by
      unfold expCnt processedB
      rfl
    rw [hexp]
    simp only [Option.map_some']
    congr 1
    rw [hmult, ← corrP_eq_corrFrom, hpart]
    push_cast
    ring
  have hnotmem1 : ∀ c, c ∉ secret → alistLookup cnt1 c = none := by
    intro c hcm
    rw [hC1 c, create_charmap_lookup_not_mem hcm]
    rfl
  obtain ⟨arr2, cnt2, hrun2, hlen2, hptw, hnn⟩ :=
    pass2Aux_spec secret guess hlen guess 0 (fun j => by rw [Nat.zero_add])
      (Nat.zero_add guess.length) arr1 cnt1 hlen1 (fun q hq => absurd hq (by omega))
      (fun q _ hq2 => harr1 q hq2) hcnt1 hnotmem1
  refine ⟨arr2, pass3Aux 0 guess arr2 gl, ?_, hlen2, hptw, ?_⟩
  · simp only [colorize_guess, hrun1, hrun2]
  · intro x
    rw [pass3Aux_mem x guess 0 arr2 gl]
    constructor
    · rintro (h | ⟨j, hj, hjx, hjc⟩)
      · exact Or.inl h
      · refine Or.inr ⟨j, hj, hjx, ?_⟩
        rw [Nat.zero_add] at hjc
        rw [hptw j hj] at hjc
        cases hspec : specVerdict secret guess j with
        | Correct => exact absurd (Or.inl (by rw [hspec])) hjc
        | Misplaced => exact absurd (Or.inr (by rw [hspec])) hjc
        | Absent => rfl
    · rintro (h | ⟨q, hq, hqx, hqs⟩)
      · exact Or.inl h
      · refine Or.inr ⟨q, hq, hqx, ?_⟩
        rw [Nat.zero_add, hptw q hq, hqs]
        rintro (hh | hh) <;> cases hh

/-! ## Shared consequences used by the claims -/

theorem lt_of_get?_some {α : Type} {l : List α} {p : Nat} {a : α}
    (h : l.get? p = some a) : p < l.length := by
  by_contra hge
  rw [List.get?_eq_none.mpr (by omega)] at h
  cases h

theorem specVerdict_misplaced {secret guess : List Char} {p : Nat} {c : Char}
    (hg : guess.get? p = some c)
    (h : specVerdict secret guess p = Verdict.Misplaced) :
    firstMisP secret guess c = some p ∧ 0 < misSecretP secret guess c := by
  rw [specVerdict_eq_of_get hg] at h
  by_cases hsc : secret.get? p = some c
  · rw [if_pos hsc] at h
    cases h
  · rw [if_neg hsc] at h
    by_cases hcond : firstMisP secret guess c = some p ∧ 0 < misSecretP secret guess c
    · exact hcond
    · rw [if_neg hcond] at h
      cases h

/-- Both passes succeed on equal-length input, with the after-pass-1 and final
descriptions of the verdict array and the count map. -/
theorem passes_spec (secret guess : List Char) (hlen : guess.length = secret.length) :
    ∃ arr1 cnt1 arr2 cnt2,
      pass1Aux secret 0 guess (guess.map fun _ => Verdict.Absent)
        (create_charmap secret) = some (arr1, cnt1) ∧
      pass2Aux secret 0 guess arr1 cnt1 = some (arr2, cnt2) ∧
      arr1.length = guess.length ∧
      arr2.length = guess.length ∧
      (∀ q, q < guess.length → arr1.get? q = some (pass1V secret guess q)) ∧
      (∀ c, alistLookup cnt1 c = (alistLookup (create_charmap secret) c).map
        (fun v => v - (corrP secret guess c : Int))) ∧
      (∀ c, c ∈ secret → alistLookup cnt1 c = some ((misSecretP secret guess c : Int))) ∧
      (∀ c, c ∉ secret → alistLookup cnt1 c = none) ∧
      (∀ q, q < guess.length → arr2.get? q = some (specVerdict secret guess q)) ∧
      (∀ c, 0 ≤ lookupD cnt2 c) := by
  obtain ⟨arr1, cnt1, hrun1, hlen1, hA1, hB1, hC1⟩ :=
    pass1Aux_spec secret guess hlen guess 0 (fun j => by rw [Nat.zero_add])
      (Nat.zero_add guess.length) (guess.map fun _ => Verdict.Absent)
      (create_charmap secret) (by rw [List.length_map])
  have harr1 : ∀ q, q < guess.length → arr1.get? q = some (pass1V secret guess q) := by
    intro q hq
    rw [hB1 q (Nat.zero_le q) hq]
    unfold pass1V
    by_cases hcond : guess.get? q = secret.get? q
    · rw [if_pos hcond, if_pos hcond]
    · rw [if_neg hcond, if_neg hcond, List.get?_map]
      obtain ⟨b, hb⟩ := get?_some_of_lt hq
      rw [hb]
      rfl
  have hC1' : ∀ c, alistLookup cnt1 c = (alistLookup (create_charmap secret) c).map
      (fun v => v - (corrP secret guess c : Int)) := by
    intro c
    rw [hC1 c, corrP_eq_corrFrom]
  have hcnt1 : ∀ c, c ∈ secret →
      alistLookup cnt1 c = some ((misSecretP secret guess c : Int)) := by
    intro c hcm
    rw [hC1' c, create_charmap_lookup_mem hcm]
    simp only [Option.map_some']
    congr 1
    have hpart := multP_partition secret guess hlen c
    rw [multP_eq_occCount] at hpart
    rw [hpart]
    push_cast
    ring
  have hnotmem1 : ∀ c, c ∉ secret → alistLookup cnt1 c = none := by
    intro c hcm
    rw [hC1' c, create_charmap_lookup_not_mem hcm]
    rfl
  have hcntexp : ∀ c, c ∈ secret →
      alistLookup cnt1 c = some (expCnt secret guess 0 c) := by
    intro c hcm
    rw [hcnt1 c hcm]
    rfl
  obtain ⟨arr2, cnt2, hrun2, hlen2, hptw, hnn⟩ :=
    pass2Aux_spec secret guess hlen guess 0 (fun j => by rw [Nat.zero_add])
      (Nat.zero_add guess.length) arr1 cnt1 hlen1 (fun q hq => absurd hq (by omega))
      (fun q _ hq2 => harr1 q hq2) hcntexp hnotmem1
  exact ⟨arr1, cnt1, arr2, cnt2, hrun1, hrun2, hlen1, hlen2, harr1, hC1', hcnt1,
    hnotmem1, hptw, hnn⟩

/-! ## Claims -/

/-- Claim C1: in pass 2, each secret letter instance satisfies at most one
misplaced match — the total consumption of a letter never exceeds its
remaining instances, so the final count never goes negative; matches are
resolved in guess-position order: once an earlier non-exact occurrence of a
letter has been processed (left to right), no later guess position with that
letter is ever marked Misplaced; and when a letter's remaining count is
already zero after pass 1, no guess position with that letter is marked
Misplaced. -/
theorem c1_pass2_misplaced_discipline (secret guess : List Char)
    (hlen : guess.length = secret.length) :
    ∃ arr1 cnt1 arr2 cnt2,
      pass1Aux secret 0 guess (guess.map fun _ => Verdict.Absent)
        (create_charmap secret) = some (arr1, cnt1) ∧
      pass2Aux secret 0 guess arr1 cnt1 = some (arr2, cnt2) ∧
      (∀ c, 0 ≤ lookupD cnt2 c) ∧
      (∀ c p q, p < q → guess.get? p = some c → ¬ (secret.get? p = some c) →
        guess.get? q = some c → ¬ (arr2.get? q = some Verdict.Misplaced)) ∧
      (∀ c, alistLookup cnt1 c = some 0 → ∀ p, guess.get? p = some c →
        ¬ (arr2.get? p = some Verdict.Misplaced)) := by
  obtain ⟨arr1, cnt1, arr2, cnt2, h1, h2, _, hl2, _, _, hcnt1, hnm1, hptw, hnn⟩ :=
    passes_spec secret guess hlen
  refine ⟨arr1, cnt1, arr2, cnt2, h1, h2, hnn, ?_, ?_⟩
  · intro c p q hpq hgp hsp hgq hmis
    have hq : q < guess.length := lt_of_get?_some hgq
    rw [hptw q hq] at hmis
    have hspec : specVerdict secret guess q = Verdict.Misplaced := Option.some.inj hmis
    obtain ⟨hfirst, _⟩ := specVerdict_misplaced hgq hspec
    obtain ⟨_, _, hleast⟩ := firstIdxBelow_some hfirst
    have hP : misOccP secret guess c p = true := decide_eq_true ⟨hgp, hsp⟩
    rw [hleast p hpq] at hP
    cases hP
  · intro c hc0 p hgp hmis
    have hp : p < guess.length := lt_of_get?_some hgp
    rw [hptw p hp] at hmis
    have hspec : specVerdict secret guess p = Verdict.Misplaced := Option.some.inj hmis
    obtain ⟨_, hpos⟩ := specVerdict_misplaced hgp hspec
    by_cases hcm : c ∈ secret
    · have hval := hcnt1 c hcm
      rw [hc0] at hval
      have hvz : (0:Int) = ((misSecretP secret guess c : Nat) : Int) :=
        Option.some.inj hval
      omega
    · rw [hnm1 c hcm] at hc0
      cases hc0

/-- Witness for C1 at secret ABC, guess ACB. -/
theorem c1_pass2_misplaced_discipline_witness :
    ∃ arr1 cnt1 arr2 cnt2,
      pass1Aux (['A','B','C']) 0 (['A','C','B'])
        ((['A','C','B']).map fun _ => Verdict.Absent)
        (create_charmap (['A','B','C'])) = some (arr1, cnt1) ∧
      pass2Aux (['A','B','C']) 0 (['A','C','B']) arr1 cnt1 = some (arr2, cnt2) ∧
      (∀ c, 0 ≤ lookupD cnt2 c) ∧
      (∀ c p q, p < q → (['A','C','B']).get? p = some c →
        ¬ ((['A','B','C']).get? p = some c) →
        (['A','C','B']).get? q = some c → ¬ (arr2.get? q = some Verdict.Misplaced)) ∧
      (∀ c, alistLookup cnt1 c = some 0 → ∀ p, (['A','C','B']).get? p = some c →
        ¬ (arr2.get? p = some Verdict.Misplaced)) :=
  c1_pass2_misplaced_discipline (['A','B','C']) (['A','C','B']) rfl

/-- Claim C3: pass 1 marks a position Correct exactly when the guess letter
equals the secret letter at that position; the count map after pass 1 is the
initial multiplicity map with each letter decremented once per Correct mark
of that letter (corrP counts the Correct marks); and pass 2 never changes
which positions are Correct. -/
theorem c3_pass1_exact_matches (secret guess : List Char)
    (hlen : guess.length = secret.length) :
    ∃ arr1 cnt1 arr2 cnt2,
      pass1Aux secret 0 guess (guess.map fun _ => Verdict.Absent)
        (create_charmap secret) = some (arr1, cnt1) ∧
      pass2Aux secret 0 guess arr1 cnt1 = some (arr2, cnt2) ∧
      (∀ p c, guess.get? p = some c →
        (arr1.get? p = some Verdict.Correct ↔ secret.get? p = some c)) ∧
      (∀ c, alistLookup cnt1 c = (alistLookup (create_charmap secret) c).map
        (fun v => v - (corrP secret guess c : Int))) ∧
      (∀ p, arr2.get? p = some Verdict.Correct ↔ arr1.get? p = some Verdict.Correct) := by
  obtain ⟨arr1, cnt1, arr2, cnt2, h1, h2, hl1, hl2, harr1, hmap, _, _, hptw, _⟩ :=
    passes_spec secret guess hlen
  refine ⟨arr1, cnt1, arr2, cnt2, h1, h2, ?_, hmap, ?_⟩
  · intro p c hgp
    have hp : p < guess.length := lt_of_get?_some hgp
    rw [harr1 p hp]
    constructor
    · intro hh
      have hmatch := (pass1V_correct_iff secret guess p).mp (Option.some.inj hh)
      exact hmatch.symm.trans hgp
    · intro hh
      exact congrArg some ((pass1V_correct_iff secret guess p).mpr (hgp.trans hh.symm))
  · intro p
    by_cases hp : p < guess.length
    · rw [hptw p hp, harr1 p hp]
      constructor
      · intro hh
        exact congrArg some ((pass1V_correct_iff secret guess p).mpr
          ((specVerdict_correct_iff secret guess hp).mp (Option.some.inj hh)))
      · intro hh
        exact congrArg some ((specVerdict_correct_iff secret guess hp).mpr
          ((pass1V_correct_iff secret guess p).mp (Option.some.inj hh)))
    · have h2n : arr2.get? p = none := List.get?_eq_none.mpr (by omega)
      have h1n : arr1.get? p = none := List.get?_eq_none.mpr (by omega)
      rw [h2n, h1n]

/-- Witness for C3 at secret ABC, guess ABC. -/
theorem c3_pass1_exact_matches_witness :
    ∃ arr1 cnt1 arr2 cnt2,
      pass1Aux (['A','B','C']) 0 (['A','B','C'])
        ((['A','B','C']).map fun _ => Verdict.Absent)
        (create_charmap (['A','B','C'])) = some (arr1, cnt1) ∧
      pass2Aux (['A','B','C']) 0 (['A','B','C']) arr1 cnt1 = some (arr2, cnt2) ∧
      (∀ p c, (['A','B','C']).get? p = some c →
        (arr1.get? p = some Verdict.Correct ↔ (['A','B','C']).get? p = some c)) ∧
      (∀ c, alistLookup cnt1 c = (alistLookup (create_charmap (['A','B','C'])) c).map
        (fun v => v - (corrP (['A','B','C']) (['A','B','C']) c : Int))) ∧
      (∀ p, arr2.get? p = some Verdict.Correct ↔ arr1.get? p = some Verdict.Correct) :=
  c3_pass1_exact_matches (['A','B','C']) (['A','B','C']) rfl

/-- Claim C10: the scorer is total under its precondition — for a guess of
the same length as the secret, colorize_guess never fails: the per-position
secret lookup of pass 1 and the count-map lookup of pass 2 (reached only for
letters occurring in the secret) always succeed, so no failure branch of the
model is ever taken. -/
theorem c10_scorer_total (secret guess : List Char) (gl : Finset Char)
    (hlen : guess.length = secret.length) :
    (colorize_guess secret guess gl).isSome := by
  obtain ⟨arr, st, hrun, _, _, _⟩ := colorize_guess_spec secret guess gl hlen
  rw [hrun]
  rfl

/-- Witness for C10. -/
theorem c10_scorer_total_witness :
    (colorize_guess (['A','A','B','C']) (['B','C','A','A']) ∅).isSome :=
  c10_scorer_total (['A','A','B','C']) (['B','C','A','A']) ∅ rfl

/-- Claim C9: the eliminated-letters set grows monotonically — whenever the
scorer returns, the returned guessed_letters set is a superset of the input
set; the final loop only ever inserts characters. -/
theorem c9_eliminated_monotone (secret guess : List Char) (gl : Finset Char)
    (arr : List Verdict) (st : Finset Char)
    (h : colorize_guess secret guess gl = some (arr, st)) : gl ⊆ st := by
  unfold colorize_guess at h
  cases hp1 : pass1Aux secret 0 guess (guess.map fun _ => Verdict.Absent)
      (create_charmap secret) with
  | none => rw [hp1] at h; cases h
  | some pr1 =>
    obtain ⟨arr1, cnt1⟩ := pr1
    simp only [hp1] at h
    cases hp2 : pass2Aux secret 0 guess arr1 cnt1 with
    | none => rw [hp2] at h; cases h
    | some pr2 =>
      obtain ⟨arr2, cnt2⟩ := pr2
      simp only [hp2] at h
      injection h with hpair
      injection hpair with h1 h2
      rw [← h2]
      exact pass3Aux_subset gl guess 0 arr2

/-- Witness for C9. -/
theorem c9_eliminated_monotone_witness :
    ({'Q'} : Finset Char) ⊆
      (insert 'D' ({'Q'} : Finset Char)) :=
  c9_eliminated_monotone (['A','B','C']) (['A','C','D']) {'Q'}
    ([Verdict.Correct, Verdict.Misplaced, Verdict.Absent])
    (insert 'D' ({'Q'} : Finset Char)) (by rfl)

/-- Number of guess positions holding the letter c whose verdict is Correct
or Misplaced. -/
def markedCount (guess : List Char) (arr : List Verdict) (c : Char) : Nat :=
  posCount guess.length (fun p => decide (guess.get? p = some c ∧
    (arr.get? p = some Verdict.Correct ∨ arr.get? p = some Verdict.Misplaced)))

/-- Number of guess positions holding the letter c whose verdict is Absent. -/
def absentCount (guess : List Char) (arr : List Verdict) (c : Char) : Nat :=
  posCount guess.length
    (fun p => decide (guess.get? p = some c ∧ arr.get? p = some Verdict.Absent))

/-- The predicate of the guess position pass 2 marks Misplaced for c. -/
def misMarkP (secret guess : List Char) (c : Char) (p : Nat) : Bool :=
  decide (guess.get? p = some c ∧ ¬(secret.get? p = some c) ∧
    firstMisP secret guess c = some p ∧ 0 < misSecretP secret guess c)

theorem misMarkP_le_one (secret guess : List Char) (c : Char) :
    posCount guess.length (misMarkP secret guess c) ≤ 1 := by
  cases hf : firstMisP secret guess c with
  | none =>
    have hz : posCount guess.length (misMarkP secret guess c) = 0 := by
      apply posCount_eq_zero
      intro i _
      apply decide_eq_false
      intro hh
      have h1 := hh.2.2.1
      rw [hf] at h1
      cases h1
    omega
  | some r =>
    exact @posCount_le_one guess.length (misMarkP secret guess c) r
      (fun i _ hPi =>
        Option.some.inj (((of_decide_eq_true hPi).2.2.1).symm.trans hf))

theorem misMarkP_pos_K {secret guess : List Char} {c : Char}
    (h : 0 < posCount guess.length (misMarkP secret guess c)) :
    0 < misSecretP secret guess c := by
  obtain ⟨p, _, hPp⟩ := posCount_exists h
  exact (of_decide_eq_true hPp).2.2.2

/-- Claim C4: duplicate-letter fairness — for every letter, the number of
guess positions marked Correct or Misplaced never exceeds the letter's
multiplicity in the secret; and when the secret holds a letter exactly once
while the guess holds it twice, exactly one occurrence is marked and the
other one is Absent. -/
theorem c4_duplicate_letter_fairness (secret guess : List Char) (gl : Finset Char)
    (hlen : guess.length = secret.length) :
    ∃ arr st, colorize_guess secret guess gl = some (arr, st) ∧
      (∀ c, markedCount guess arr c ≤ multP secret c) ∧
      (∀ c, multP secret c = 1 → multP guess c = 2 →
        markedCount guess arr c = 1 ∧ absentCount guess arr c = 1) := by
  obtain ⟨arr, st, hrun, hlenA, hptw, _⟩ := colorize_guess_spec secret guess gl hlen
  have hKdef : ∀ c, multP secret c = corrP secret guess c + misSecretP secret guess c :=
    multP_partition secret guess hlen
  have hmark : ∀ c, markedCount guess arr c = corrP secret guess c +
      posCount guess.length (misMarkP secret guess c) := by
    intro c
    unfold markedCount
    have hpt : ∀ p, p < guess.length →
        (decide (guess.get? p = some c ∧
          (arr.get? p = some Verdict.Correct ∨ arr.get? p = some Verdict.Misplaced))) =
        ((decide (guess.get? p = some c ∧ secret.get? p = some c)) ||
          misMarkP secret guess c p) := by
      intro p hp
      unfold misMarkP
      rw [hptw p hp, Bool.eq_iff_iff]
      simp only [decide_eq_true_eq, Bool.or_eq_true]
      constructor
      · rintro ⟨hgc, hCM⟩
        by_cases hsc : secret.get? p = some c
        · exact Or.inl ⟨hgc, hsc⟩
        · right
          have hv : specVerdict secret guess p = Verdict.Misplaced := by
            rcases hCM with hC | hM
            · exfalso
              have hmatch := (specVerdict_correct_iff secret guess hp).mp
                (Option.some.inj hC)
              exact hsc (hmatch.symm.trans hgc)
            · exact Option.some.inj hM
          obtain ⟨hfirst, hK⟩ := specVerdict_misplaced hgc hv
          exact ⟨hgc, hsc, hfirst, hK⟩
      · rintro (⟨hgc, hsc⟩ | ⟨hgc, hsc, hfirst, hK⟩)
        · exact ⟨hgc, Or.inl (congrArg some
            ((specVerdict_correct_iff secret guess hp).mpr (hgc.trans hsc.symm)))⟩
        · refine ⟨hgc, Or.inr (congrArg some ?_)⟩
          rw [specVerdict_eq_of_get hgc, if_neg hsc, if_pos ⟨hfirst, hK⟩]
    rw [posCount_congr hpt, posCount_or_disjoint (fun i _ hh => by
      have h1 := of_decide_eq_true hh.1
      have h2 := (of_decide_eq_true hh.2).2.1
      exact h2 h1.2)]
    rfl
  have hsplit : ∀ c, multP guess c = markedCount guess arr c + absentCount guess arr c := by
    intro c
    unfold multP markedCount absentCount
    have hpt : ∀ p, p < guess.length →
        (decide (guess.get? p = some c)) =
        ((decide (guess.get? p = some c ∧
          (arr.get? p = some Verdict.Correct ∨ arr.get? p = some Verdict.Misplaced))) ||
          (decide (guess.get? p = some c ∧ arr.get? p = some Verdict.Absent))) := by
      intro p hp
      rw [hptw p hp, Bool.eq_iff_iff]
      simp only [decide_eq_true_eq, Bool.or_eq_true]
      constructor
      · intro hgc
        cases hv : specVerdict secret guess p with
        | Correct => exact Or.inl ⟨hgc, Or.inl rfl⟩
        | Misplaced => exact Or.inl ⟨hgc, Or.inr rfl⟩
        | Absent => exact Or.inr ⟨hgc, rfl⟩
      · rintro (⟨hgc, _⟩ | ⟨hgc, _⟩) <;> exact hgc
    rw [posCount_congr hpt, posCount_or_disjoint (fun i _ hh => by
      have h1 := (of_decide_eq_true hh.1).2
      have h2 := (of_decide_eq_true hh.2).2
      rcases h1 with h1 | h1 <;>
        · rw [h2] at h1
          cases Option.some.inj h1)]
  refine ⟨arr, st, hrun, ?_, ?_⟩
  · intro c
    have hle := misMarkP_le_one secret guess c
    rw [hmark c, hKdef c]
    by_cases h0 : 0 < posCount guess.length (misMarkP secret guess c)
    · have := misMarkP_pos_K h0
      omega
    · omega
  · intro c hm1 hg2
    have hKeq : corrP secret guess c + misSecretP secret guess c = 1 := by
      rw [← hKdef c]
      exact hm1
    have hmark1 : markedCount guess arr c = 1 := by
      rcases Nat.lt_or_ge (corrP secret guess c) 1 with hcor | hcor
      · have hc0 : corrP secret guess c = 0 := by omega
        have hK1 : misSecretP secret guess c = 1 := by omega
        have hg2' : 0 < multP guess c := by omega
        obtain ⟨p, hp, hPp⟩ := posCount_exists hg2'
        have hgc : guess.get? p = some c := of_decide_eq_true hPp
        have hnsc : ¬ (secret.get? p = some c) := by
          intro hsc
          have : 0 < corrP secret guess c := posCount_pos hp (decide_eq_true ⟨hgc, hsc⟩)
          omega
        have hOcc : misOccP secret guess c p = true := decide_eq_true ⟨hgc, hnsc⟩
        obtain ⟨r, hr⟩ := firstIdxBelow_isSome hOcc hp
        obtain ⟨hPr, hrn, _⟩ := firstIdxBelow_some hr
        have hocc := of_decide_eq_true hPr
        have hmis1 : 0 < posCount guess.length (misMarkP secret guess c) :=
          posCount_pos hrn (decide_eq_true ⟨hocc.1, hocc.2, hr, by omega⟩)
        have hle := misMarkP_le_one secret guess c
        rw [hmark c, hc0]
        omega
      · have hc1 : corrP secret guess c = 1 := by omega
        have hK0 : misSecretP secret guess c = 0 := by omega
        have hmis0 : posCount guess.length (misMarkP secret guess c) = 0 :=
          posCount_eq_zero (fun i _ => decide_eq_false (fun hh => by
            have := hh.2.2.2
            omega))
        rw [hmark c, hc1, hmis0]
    refine ⟨hmark1, ?_⟩
    have := hsplit c
    omega

/-- Witness for C4 at secret AXB, guess AAY (A once in the secret, twice in
the guess). -/
theorem c4_duplicate_letter_fairness_witness :
    ∃ arr st, colorize_guess (['A','X','B']) (['A','A','Y']) ∅ = some (arr, st) ∧
      (∀ c, markedCount (['A','A','Y']) arr c ≤ multP (['A','X','B']) c) ∧
      (∀ c, multP (['A','X','B']) c = 1 → multP (['A','A','Y']) c = 2 →
        markedCount (['A','A','Y']) arr c = 1 ∧ absentCount (['A','A','Y']) arr c = 1) :=
  c4_duplicate_letter_fairness (['A','X','B']) (['A','A','Y']) ∅ rfl

/-! ## Game termination -/

theorem is_game_over_won (word guess : List Char) (n : Nat) (h : guess = word) :
    is_game_over word guess n = Outcome.Won := by
  unfold is_game_over
  rw [if_pos h]

theorem runAux_lost_iff (word : List Char) :
    ∀ (gs : List (List Char)) (n : Nat), n < MAX_TRIES →
      (((runAux word n gs).1 = Outcome.Lost) ↔
        (MAX_TRIES - n ≤ gs.length ∧ ∀ i, i < MAX_TRIES - n → gs.get? i ≠ some word)) := by
  intro gs
  induction gs with
  | nil =>
    intro n hn
    constructor
    · intro h
      cases h
    · rintro ⟨h1, _⟩
      exfalso
      simp only [List.length_nil] at h1
      omega
  | cons g gs ih =>
    intro n hn
    by_cases hw : g = word
    · have hred : runAux word n (g :: gs) = (Outcome.Won, n + 1) := by
        simp only [runAux]
        rw [is_game_over_won word g (n + 1) hw]
      rw [hred]
      constructor
      · intro h
        cases h
      · rintro ⟨h1, h2⟩
        exact absurd (congrArg some hw) (h2 0 (by omega))
    · by_cases hmax : MAX_TRIES ≤ n + 1
      · have hred : runAux word n (g :: gs) = (Outcome.Lost, n + 1) := by
          simp only [runAux]
          rw [show is_game_over word g (n + 1) = Outcome.Lost from by
            unfold is_game_over
            rw [if_neg hw, if_pos hmax]]
        rw [hred]
        constructor
        · intro _
          refine ⟨by simp only [List.length_cons]; omega, ?_⟩
          intro i hi
          have hi0 : i = 0 := by omega
          subst hi0
          exact fun hh => hw (Option.some.inj hh)
        · intro _
          rfl
      · have hred : runAux word n (g :: gs) = runAux word (n + 1) gs := by
          simp only [runAux]
          rw [show is_game_over word g (n + 1) = Outcome.Continue from by
            unfold is_game_over
            rw [if_neg hw, if_neg hmax]]
        rw [hred, ih (n + 1) (by omega)]
        constructor
        · rintro ⟨h1, h2⟩
          refine ⟨by simp only [List.length_cons]; omega, ?_⟩
          intro i hi
          cases i with
          | zero => exact fun hh => hw (Option.some.inj hh)
          | succ j => exact h2 j (by omega)
        · rintro ⟨h1, h2⟩
          simp only [List.length_cons] at h1
          refine ⟨by omega, ?_⟩
          intro i hi
          exact h2 (i + 1) (by omega)

theorem runAux_lost_count (word : List Char) :
    ∀ (gs : List (List Char)) (n : Nat), n < MAX_TRIES →
      (runAux word n gs).1 = Outcome.Lost → (runAux word n gs).2 = MAX_TRIES := by
  intro gs
  induction gs with
  | nil =>
    intro n _ h
    cases h
  | cons g gs ih =>
    intro n hn h
    by_cases hw : g = word
    · rw [show runAux word n (g :: gs) = (Outcome.Won, n + 1) from by
        simp only [runAux]; rw [is_game_over_won word g (n + 1) hw]] at h
      cases h
    · by_cases hmax : MAX_TRIES ≤ n + 1
      · rw [show runAux word n (g :: gs) = (Outcome.Lost, n + 1) from by
          simp only [runAux]
          rw [show is_game_over word g (n + 1) = Outcome.Lost from by
            unfold is_game_over; rw [if_neg hw, if_pos hmax]]]
        show n + 1 = MAX_TRIES
        omega
      · rw [show runAux word n (g :: gs) = runAux word (n + 1) gs from by
          simp only [runAux]
          rw [show is_game_over word g (n + 1) = Outcome.Continue from by
            unfold is_game_over; rw [if_neg hw, if_neg hmax]]] at h ⊢
        exact ih (n + 1) (by omega) h

theorem runAux_won (word : List Char) :
    ∀ (gs : List (List Char)) (n k : Nat), n + k < MAX_TRIES →
      (∀ j, j < k → gs.get? j ≠ some word) → gs.get? k = some word →
      runAux word n gs = (Outcome.Won, n + k + 1) := by
  intro gs
  induction gs with
  | nil =>
    intro n k _ _ hk
    cases hk
  | cons g gs ih =>
    intro n k hnk hj hk
    cases k with
    | zero =>
      have hw : g = word := Option.some.inj hk
      simp only [runAux]
      rw [is_game_over_won word g (n + 1) hw]
    | succ q =>
      have hw : ¬ (g = word) := fun hh => hj 0 (Nat.succ_pos q) (congrArg some hh)
      have hmax : ¬ (MAX_TRIES ≤ n + 1) := by omega
      rw [show runAux word n (g :: gs) = runAux word (n + 1) gs from by
        simp only [runAux]
        rw [show is_game_over word g (n + 1) = Outcome.Continue from by
          unfold is_game_over; rw [if_neg hw, if_neg hmax]]]
      have hrec := ih (n + 1) q (by omega) (fun j hjq => hj (j + 1) (by omega)) hk
      rw [show n + 1 + q + 1 = n + (q + 1) + 1 from by omega] at hrec
      exact hrec

/-- Claim C5: over a run on a stream of accepted guesses, the game is Lost
exactly when six accepted guesses were consumed and none of the first six
equals the secret (and the consumed count then equals MAX_TRIES); the game is
Won the instant an accepted guess equals the secret, regardless of the
attempt count — in particular is_game_over answers Won, never Lost, whenever
the guess equals the secret, even on the sixth try. -/
theorem c5_terminal_states (word : List Char) (gs : List (List Char)) :
    (∀ n, is_game_over word word n = Outcome.Won) ∧
    ((runGame word gs).1 = Outcome.Lost ↔
      (MAX_TRIES ≤ gs.length ∧ ∀ i, i < MAX_TRIES → gs.get? i ≠ some word)) ∧
    ((runGame word gs).1 = Outcome.Lost → (runGame word gs).2 = MAX_TRIES) ∧
    (∀ k, k < MAX_TRIES → (∀ j, j < k → gs.get? j ≠ some word) →
      gs.get? k = some word → runGame word gs = (Outcome.Won, k + 1)) := by
  refine ⟨fun n => is_game_over_won word word n rfl, ?_, ?_, ?_⟩
  · have hiff := runAux_lost_iff word gs 0 (by decide)
    rw [Nat.sub_zero] at hiff
    exact hiff
  · intro h
    exact runAux_lost_count word gs 0 (by decide) h
  · intro k hk hj hkw
    have hwon := runAux_won word gs 0 k (by omega) hj hkw
    rw [Nat.zero_add] at hwon
    exact hwon

/-! ## Guess validation -/

/-- Claim C6: a submitted line is rejected, with a distinct reason for each
case, exactly when its sanitized form has the wrong length or is not in the
dictionary; a rejection leaves the whole game state unchanged (history,
eliminated letters and attempt count untouched), and an accepted guess
appends exactly one scored entry to the history. -/
theorem c6_guess_validation (st : GameState) (raw : List Char)
    (hword : st.word.length = WORD_LENGTH) :
    ∃ r st2, submit_guess st raw = some (r, st2) ∧
      ((r = SubmitOutcome.rejectedLength) ↔ (sanitize_word raw).length ≠ WORD_LENGTH) ∧
      ((r = SubmitOutcome.rejectedUnknown) ↔
        ((sanitize_word raw).length = WORD_LENGTH ∧ sanitize_word raw ∉ st.dictionary)) ∧
      ((r = SubmitOutcome.accepted) ↔
        ((sanitize_word raw).length = WORD_LENGTH ∧ sanitize_word raw ∈ st.dictionary)) ∧
      (r ≠ SubmitOutcome.accepted → st2 = st) ∧
      (r = SubmitOutcome.accepted → ∃ scored, st2.guesses = st.guesses ++ [scored] ∧
        st2.word = st.word ∧ st2.dictionary = st.dictionary) := by
  by_cases hL : (sanitize_word raw).length = WORD_LENGTH
  · by_cases hD : sanitize_word raw ∈ st.dictionary
    · obtain ⟨arr, stg, hrunC, _, _, _⟩ :=
        colorize_guess_spec st.word (sanitize_word raw) st.guessed_letters
          (by rw [hL, hword])
      have hred : submit_guess st raw = some (SubmitOutcome.accepted,
          { st with guessed_letters := stg, guesses := st.guesses ++ [arr] }) := by
        simp only [submit_guess]
        rw [if_neg (fun hh => hh hL), if_neg (fun hh => hh hD), hrunC]
      refine ⟨SubmitOutcome.accepted, _, hred,
        iff_of_false (by decide) (fun hh => hh hL),
        iff_of_false (by decide) (fun hh => hh.2 hD),
        iff_of_true rfl ⟨hL, hD⟩,
        fun hh => absurd rfl hh,
        fun _ => ⟨arr, rfl, rfl, rfl⟩⟩
    · have hred : submit_guess st raw = some (SubmitOutcome.rejectedUnknown, st) := by
        simp only [submit_guess]
        rw [if_neg (fun hh => hh hL), if_pos hD]
      refine ⟨SubmitOutcome.rejectedUnknown, st, hred,
        iff_of_false (by decide) (fun hh => hh hL),
        iff_of_true rfl ⟨hL, hD⟩,
        iff_of_false (by decide) (fun hh => hD hh.2),
        fun _ => rfl,
        fun hh => absurd hh (by decide)⟩
  · have hred : submit_guess st raw = some (SubmitOutcome.rejectedLength, st) := by
      simp only [submit_guess]
      rw [if_pos hL]
    refine ⟨SubmitOutcome.rejectedLength, st, hred,
      iff_of_true rfl hL,
      iff_of_false (by decide) (fun hh => hL hh.1),
      iff_of_false (by decide) (fun hh => hL hh.1),
      fun _ => rfl,
      fun hh => absurd hh (by decide)⟩

/-- Witness for C6: a two-letter input line against a five-letter secret. -/
theorem c6_guess_validation_witness :
    ∃ r st2, submit_guess
        ⟨[['C','R','A','N','E']], ['C','R','A','N','E'], ∅, []⟩ (['x','y']) =
        some (r, st2) ∧
      ((r = SubmitOutcome.rejectedLength) ↔
        (sanitize_word (['x','y'])).length ≠ WORD_LENGTH) ∧
      ((r = SubmitOutcome.rejectedUnknown) ↔
        ((sanitize_word (['x','y'])).length = WORD_LENGTH ∧
          sanitize_word (['x','y']) ∉
            (⟨[['C','R','A','N','E']], ['C','R','A','N','E'], ∅, []⟩ :
              GameState).dictionary)) ∧
      ((r = SubmitOutcome.accepted) ↔
        ((sanitize_word (['x','y'])).length = WORD_LENGTH ∧
          sanitize_word (['x','y']) ∈
            (⟨[['C','R','A','N','E']], ['C','R','A','N','E'], ∅, []⟩ :
              GameState).dictionary)) ∧
      (r ≠ SubmitOutcome.accepted → st2 =
        ⟨[['C','R','A','N','E']], ['C','R','A','N','E'], ∅, []⟩) ∧
      (r = SubmitOutcome.accepted → ∃ scored, st2.guesses =
        (⟨[['C','R','A','N','E']], ['C','R','A','N','E'], ∅, []⟩ :
          GameState).guesses ++ [scored] ∧
        st2.word = ['C','R','A','N','E'] ∧
        st2.dictionary = [['C','R','A','N','E']]) :=
  c6_guess_validation ⟨[['C','R','A','N','E']], ['C','R','A','N','E'], ∅, []⟩
    (['x','y']) rfl

/-! ## Dictionary loader -/

/-- The loader contract in the words of the specification: split the raw text
into lines, skip the fixed number of header lines regardless of content,
normalize each remaining line, and retain exactly those lines whose
normalized length equals the configured word length (one pass, dropping
everything else silently). -/
def dictionary_spec (text : List Char) : List (List Char) :=
  ((splitNewlines text).drop 2).filterMap (fun line =>
    if (sanitize_word line).length = WORD_LENGTH then some (sanitize_word line) else none)

theorem filter_map_sanitize (ls : List (List Char)) :
    ((ls.map sanitize_word).filter (fun line => line.length = WORD_LENGTH)) =
      ls.filterMap (fun line =>
        if (sanitize_word line).length = WORD_LENGTH then some (sanitize_word line)
        else none) := by
  induction ls with
  | nil => rfl
  | cons l ls ih =>
    simp only [List.map_cons, List.filterMap_cons, List.filter_cons]
    by_cases hc : (sanitize_word l).length = WORD_LENGTH
    · rw [if_pos hc]
      simp only [decide_eq_true hc, if_pos]
      rw [ih]
    · rw [if_neg hc]
      simp only [decide_eq_false hc]
      rw [if_neg (by exact Bool.false_ne_true)]
      exact ih

/-- Claim C7: the dictionary loader produces exactly the spec's contract —
the lines of the text with the two header lines dropped regardless of
content, each normalized, keeping only those of normalized length
WORD_LENGTH; and every produced entry has length WORD_LENGTH (dropping of
malformed lines is silent: the loader is a total function). -/
theorem c7_dictionary_loader (text : List Char) :
    words_list text = dictionary_spec text ∧
    (∀ w, w ∈ words_list text → w.length = WORD_LENGTH) := by
  constructor
  · unfold words_list dictionary_spec
    exact filter_map_sanitize ((splitNewlines text).drop 2)
  · intro w hw
    unfold words_list at hw
    exact of_decide_eq_true (List.mem_filter.mp hw).2

/-! ## Normalization -/

theorem ofNat_toNat_in_upper {n : Nat} (h1 : 65 ≤ n) (h2 : n ≤ 90) :
    (Char.ofNat n).toNat = n := by
  interval_cases n <;> rfl

theorem sanitize_mem_upper {s : List Char} {c : Char} (hc : c ∈ sanitize_word s) :
    65 ≤ c.toNat ∧ c.toNat ≤ 90 := by
  unfold sanitize_word at hc
  have hA := (List.mem_filter.mp hc).2
  obtain ⟨d, hd, hdc⟩ := List.mem_map.mp (List.mem_filter.mp hc).1
  have hAprop := of_decide_eq_true hA
  by_cases hlow : 97 ≤ d.toNat ∧ d.toNat ≤ 122
  · have hce : c = Char.ofNat (d.toNat - 32) := by
      rw [← hdc]
      unfold toUpperChar
      rw [if_pos hlow]
    rw [hce, ofNat_toNat_in_upper (by omega) (by omega)]
    omega
  · have hcd : c = d := by
      rw [← hdc]
      unfold toUpperChar
      rw [if_neg hlow]
    rcases hAprop with h | h
    · exact h
    · exact absurd (hcd ▸ h) hlow

theorem dropWhile_eq_self_of {p : Char → Bool} :
    ∀ {l : List Char}, (∀ x ∈ l, p x = false) → l.dropWhile p = l := by
  intro l h
  cases l with
  | nil => rfl
  | cons x xs =>
    rw [List.dropWhile_cons, if_neg (by
      rw [h x (List.mem_cons_self x xs)]
      exact Bool.false_ne_true)]

theorem not_whitespace_of_upper {c : Char} (h1 : 65 ≤ c.toNat) (h2 : c.toNat ≤ 90) :
    isWhitespaceChar c = false := by
  unfold isWhitespaceChar
  apply decide_eq_false
  intro hmem
  simp at hmem
  omega

theorem toUpperChar_id_of_upper {c : Char} (h1 : 65 ≤ c.toNat) (h2 : c.toNat ≤ 90) :
    toUpperChar c = c := by
  unfold toUpperChar
  rw [if_neg (by omega)]

/-- Claim C8: sanitize_word is idempotent — every character it outputs is an
uppercase ASCII letter, so trimming, uppercasing and filtering are all
no-ops on its output — and it strips case and non-alphabetic characters
deterministically, sending the characters of hello world to those of
HELLOWORLD. -/
theorem c8_sanitize_idempotent :
    (∀ s : List Char, sanitize_word (sanitize_word s) = sanitize_word s) ∧
    sanitize_word (['h','e','l','l','o',' ','w','o','r','l','d']) =
      (['H','E','L','L','O','W','O','R','L','D']) := by
  constructor
  · intro s
    have hup : ∀ c ∈ sanitize_word s, 65 ≤ c.toNat ∧ c.toNat ≤ 90 :=
      fun c hc => sanitize_mem_upper hc
    have htrim : trimList (sanitize_word s) = sanitize_word s := by
      unfold trimList
      rw [dropWhile_eq_self_of
        (fun x hx => not_whitespace_of_upper (hup x hx).1 (hup x hx).2)]
      rw [dropWhile_eq_self_of (fun x hx => by
        have hb := hup x (List.mem_reverse.mp hx)
        exact not_whitespace_of_upper hb.1 hb.2)]
      exact List.reverse_reverse _
    have hmap : (sanitize_word s).map toUpperChar = sanitize_word s := by
      conv_rhs => rw [← List.map_id (sanitize_word s)]
      exact List.map_congr_left
        (fun a ha => toUpperChar_id_of_upper (hup a ha).1 (hup a ha).2)
    show ((trimList (sanitize_word s)).map toUpperChar).filter isAsciiAlphabetic =
      sanitize_word s
    rw [htrim, hmap]
    exact List.filter_eq_self.mpr (fun a ha => (List.mem_filter.mp ha).2)
  · rfl

/-! ## The eliminated-letters insertion bug -/

/-- Claim C2 evaluation at the failing input: for secret AXB and guess AAY
the verdicts are Correct, Absent, Absent — yet the letter A, Correct at
position 0, is inserted into the eliminated-letters set because its second
occurrence is Absent.  The code inserts a character for every position that
is neither Correct nor Misplaced, so a letter holding a winning verdict
elsewhere is not exempted, and the game then reports a letter of the secret
word as not in the word. -/
theorem c2_elimination_failing_input :
    colorize_guess (['A','X','B']) (['A','A','Y']) ∅ =
      some ([Verdict.Correct, Verdict.Absent, Verdict.Absent],
        insert 'Y' (insert 'A' (∅ : Finset Char))) ∧
    'A' ∈ insert 'Y' (insert 'A' (∅ : Finset Char)) := by
  constructor
  · rfl
  · decide

end Rustle
